import Mathlib

/-! # Vector-based amplitude panner (VBAP) and fixed-size vectors of allolib

A shallow embedding of `al/sound/al_Vbap.hpp` and of `al/math/al_Vec.hpp`.
Floating-point numbers (`double`, `float`) are taken as exact rationals, or as
elements of an ordered field.  The header `al_Vbap.hpp` declares the panner,
its state and the `SpeakerTriple` record; the bodies of its member functions
are in `al_Vbap.cpp`, which is not among the sources, so each of them is
modelled from the specification and marked as such.  The functions of
`al_Vec.hpp` are embedded from their source, first for `Vec<3, double>` as the
panner uses it, then for the class template `Vec<N, T>`.
-/

namespace al

/-! ## `Vec<3, double>` (`al/math/al_Vec.hpp`) -/

/-- The three-component vector `Vec3d` (`Vec<3, double>`): elements `x`, `y`, `z`
of `VecElems<3, T>`. -/
structure Vec3d where
  x : ℚ
  y : ℚ
  z : ℚ
  deriving DecidableEq

namespace Vec3d

/-- The value `Vec(const T &v = T())`: every element set to `v`. -/
def fill (v : ℚ) : Vec3d := ⟨v, v, v⟩

/-- The method `dot`: `r = (*this)[0] * v[0]`, then `r += (*this)[i] * v[i]` for `i = 1, 2`. -/
def dot (a v : Vec3d) : ℚ := a.x * v.x + a.y * v.y + a.z * v.z

/-- The method `magSqr`: `dot(*this)`. -/
def magSqr (a : Vec3d) : ℚ := a.dot a

/-- The method `cross` of `VecElems<3, T>`:
`(y * b.z - z * b.y, z * b.x - x * b.z, x * b.y - y * b.x)`. -/
def cross (a b : Vec3d) : Vec3d :=
  ⟨a.y * b.z - a.z * b.y, a.z * b.x - a.x * b.z, a.x * b.y - a.y * b.x⟩

/-- The operator `operator*(const T &v)`: every element multiplied by `v`. -/
def scale (a : Vec3d) (v : ℚ) : Vec3d := ⟨a.x * v, a.y * v, a.z * v⟩

/-- The operator `operator/(const T &v)`: every element divided by `v`. -/
def divScalar (a : Vec3d) (v : ℚ) : Vec3d := ⟨a.x / v, a.y / v, a.z / v⟩

/-- The operator `operator-()`: `negate` on a copy. -/
def neg (a : Vec3d) : Vec3d := ⟨-a.x, -a.y, -a.z⟩

end Vec3d

/-! ## Constants of `al_Vbap.hpp` -/

/-- The macro `MAX_NUM_VBAP_TRIPLETS 512`; the specification gives it no role. -/
def MAX_NUM_VBAP_TRIPLETS : ℕ := 512

/-- The macro `MIN_VOLUME_TO_LENGTH_RATIO 0.000001`. -/
def MIN_VOLUME_TO_LENGTH_RATIO : ℚ := 1 / 1000000

/-- The macro `MIN_LENGTH 0.00001`. -/
def MIN_LENGTH : ℚ := 1 / 100000

/-- The enumerator `KEEP_SAME_ELEVATION = 0x1` of `VbapOptions`. -/
def KEEP_SAME_ELEVATION : ℕ := 1

/-! ## Collaborators that are not among the sources -/

/-- Modelled from the spec: the 3x3 matrix type `Mat3d` (`al/math/al_Mat.hpp` is
missing).  It holds the inverse of a Region's basis, row by row, so that the raw
gain of member `i` is row `i` applied to the query direction. -/
structure Mat3d where
  r1 : Vec3d
  r2 : Vec3d
  r3 : Vec3d
  deriving DecidableEq

/-- Modelled from the spec: the product of a `Mat3d` (missing) with a column vector. -/
def Mat3d.mulVec (m : Mat3d) (q : Vec3d) : Vec3d := ⟨m.r1.dot q, m.r2.dot q, m.r3.dot q⟩

/-- Modelled from the spec: a `Speaker` of the Speaker Directory
(`al/sound/al_Speaker.hpp` is missing): "a unit direction vector and an output
channel index".  Azimuth and elevation are read off the direction vector, whose
`y` axis points up (the horizontal plane is the `(x, z)` plane). -/
structure Speaker where
  vec : Vec3d
  deviceChannel : ℕ
  deriving DecidableEq

/-- Modelled from the spec: the output side of `AudioIOData` (missing): one
accumulator per output channel and frame. -/
abbrev AudioOut := ℕ → ℕ → ℚ

/-- Modelled from the spec: the numeric environment of the Gain Solver and the
Region Locator, which the spec names without fixing values: the square root
used for power normalisation (`std::sqrt`), the "small negative-epsilon
tolerance" of the locator and the "near-zero power sum" bound below which
gains are clamped to zero. -/
structure Numerics where
  sqrt : ℚ → ℚ
  epsilon : ℚ
  minPower : ℚ

/-- Newton's iteration for the integer square root, from a guess, with a bound
on the number of steps. -/
def sqrtIter (n : ℕ) : ℕ → ℕ → ℕ
  | 0, guess => guess
  | fuel + 1, guess =>
    if (guess + n / guess) / 2 < guess then sqrtIter n fuel ((guess + n / guess) / 2)
    else guess

/-- The integer square root. -/
def natSqrt (n : ℕ) : ℕ := if n ≤ 1 then n else sqrtIter n n (n / 2)

/-- A square root on the rationals, exact on the squares of rationals: the
integer square root of `num * den` over `den`. -/
def ratSqrt (q : ℚ) : ℚ := (natSqrt (q.num.toNat * q.den) : ℚ) / (q.den : ℚ)

/-! ## `SpeakerTriple` (`al_Vbap.hpp`, lines 63-82) -/

/-- The record `SpeakerTriple`.  The fields `s1`, `s1Vec`, `s2`, `s2Vec`, `s3`,
`s3Vec`, `mat`, `s1Chan`, `s2Chan`, `s3Chan` are those of the header; the arrays
`vec[3]`, `speakerIdx[3]` and `speakerChan[3]` repeat them and are left out.
`mat` holds the inverse of the basis, or `none` as the "marker that the matrix
is singular/invalid".  A pair (2D) has `s3 = -1`, the default third index of
`makeTriple`. -/
structure SpeakerTriple where
  s1 : ℤ
  s1Vec : Vec3d
  s2 : ℤ
  s2Vec : Vec3d
  s3 : ℤ
  s3Vec : Vec3d
  mat : Option Mat3d
  s1Chan : ℕ
  s2Chan : ℕ
  s3Chan : ℕ
  deriving DecidableEq

/-- Modelled from the spec: access to the Speaker Directory (the code reading the
speaker list is missing): element `s` of the list, when `s` is an index of it. -/
def speakerAt (spkrs : List Speaker) (s : ℤ) : Option Speaker :=
  if 0 ≤ s then spkrs.get? s.toNat else none

/-- Modelled from the spec: whether `s` is in the range of the speaker list (the
range check of `makeTriple` is missing with its body). -/
def validIndex (spkrs : List Speaker) (s : ℤ) : Bool :=
  decide (0 ≤ s) && decide (s < (spkrs.length : ℤ))

/-- Modelled from the spec: the direction vector that `loadVectors` (body missing)
reads for speaker `s`; the zero vector when there is no such speaker. -/
def speakerVec (spkrs : List Speaker) (s : ℤ) : Vec3d :=
  match speakerAt spkrs s with
  | some sp => sp.vec
  | none => Vec3d.fill 0

/-- Modelled from the spec: the output channel that `loadVectors` (body missing)
reads for speaker `s`; channel 0 when there is no such speaker. -/
def speakerChan (spkrs : List Speaker) (s : ℤ) : ℕ :=
  match speakerAt spkrs s with
  | some sp => sp.deviceChannel
  | none => 0

/-- Modelled from the spec: the determinant of the 3x3 basis whose columns are
`a`, `b`, `c` (the matrix code, `al_Mat.hpp`, is missing). -/
def det3 (a b c : Vec3d) : ℚ := a.dot (b.cross c)

/-- Modelled from the spec: the determinant of "the 2x2 matrix of their (x,z)
components" (the matrix code, `al_Mat.hpp`, is missing). -/
def det2 (a b : Vec3d) : ℚ := a.x * b.z - a.z * b.x

/-- Modelled from the spec: the basis determinant of a Region (the body of
`loadVectors` is missing): 3x3 for a triple, and for a pair "the 2x2 matrix of
their (x,z) components". -/
def SpeakerTriple.det (t : SpeakerTriple) : ℚ :=
  if t.s3 = -1 then det2 t.s1Vec t.s2Vec else det3 t.s1Vec t.s2Vec t.s3Vec

/-- Modelled from the spec: the inverse of a Region's basis (the body of
`loadVectors` is missing), by Cramer's rule; for a pair the third row is zero. -/
def SpeakerTriple.inverse (t : SpeakerTriple) : Mat3d :=
  if t.s3 = -1 then
    ⟨Vec3d.divScalar ⟨t.s2Vec.z, 0, -t.s2Vec.x⟩ t.det,
     Vec3d.divScalar ⟨-t.s1Vec.z, 0, t.s1Vec.x⟩ t.det,
     Vec3d.fill 0⟩
  else
    ⟨(t.s2Vec.cross t.s3Vec).divScalar t.det,
     (t.s3Vec.cross t.s1Vec).divScalar t.det,
     (t.s1Vec.cross t.s2Vec).divScalar t.det⟩

/-- Modelled from the spec: `SpeakerTriple::loadVectors` (declared in the header,
body missing).  It reads the members' direction vectors and channels from the
speaker list and caches the inverse of the basis; the result flag says whether
the basis is invertible: "non-singular (determinant magnitude above a minimum
threshold)", the threshold being `MIN_VOLUME_TO_LENGTH_RATIO`. -/
def SpeakerTriple.loadVectors (t : SpeakerTriple) (spkrs : List Speaker) :
    SpeakerTriple × Bool :=
  let u : SpeakerTriple :=
    { t with
      s1Vec := speakerVec spkrs t.s1
      s2Vec := speakerVec spkrs t.s2
      s3Vec := speakerVec spkrs t.s3
      s1Chan := speakerChan spkrs t.s1
      s2Chan := speakerChan spkrs t.s2
      s3Chan := speakerChan spkrs t.s3 }
  if |u.det| > MIN_VOLUME_TO_LENGTH_RATIO then
    ({ u with mat := some u.inverse }, true)
  else
    ({ u with mat := none }, false)

/-- Modelled from the spec: a `SpeakerTriple` with the given member indices and
nothing loaded yet, as `makeTriple` and the builders (bodies missing) set it up
before `loadVectors`. -/
def SpeakerTriple.ofIndices (s1 s2 s3 : ℤ) : SpeakerTriple :=
  { s1 := s1, s1Vec := Vec3d.fill 0, s2 := s2, s2Vec := Vec3d.fill 0,
    s3 := s3, s3Vec := Vec3d.fill 0, mat := none, s1Chan := 0, s2Chan := 0, s3Chan := 0 }

/-- Modelled from the spec: the member speaker indices of a Region, "an ordered
list of 2 or 3 speaker indices": two for a pair, three for a triple. -/
def SpeakerTriple.members (t : SpeakerTriple) : List ℤ :=
  if t.s3 = -1 then [t.s1, t.s2] else [t.s1, t.s2, t.s3]

/-! ## The panner state (`al_Vbap.hpp`, lines 135-140) -/

/-- Modelled from the spec: the errors of the error taxonomy that a call reports
to its caller (the reporting code is missing). -/
inductive VbapError where
  | ConfigurationDegenerate
  | InvalidManualTriple
  | InvalidPhantomMapping
  deriving DecidableEq

/-- The private state of class `Vbap`: `mTriplets`, `mPhantomChannels`
(a `std::map`, kept as an association list with one entry per key), `mIs3D`
and `mOptions` (a bit set of `VbapOptions`), and the speaker layout `mSpeakers`
held by the base class `Spatializer`. -/
structure Vbap where
  mSpeakers : List Speaker
  mTriplets : List SpeakerTriple
  mPhantomChannels : List (ℕ × List ℕ)
  mIs3D : Bool
  mOptions : ℕ
  deriving DecidableEq

/-- Modelled from the spec: the constructor `Vbap(const Speakers &sl, bool is3D = false)`
(body missing): the layout and the mode are recorded, the Topology is empty. -/
def Vbap.new (sl : List Speaker) ( is3D : Bool) : Vbap :=
  { mSpeakers := sl, mTriplets := [], mPhantomChannels := [], mIs3D := is3D, mOptions := 0 }

/-- The method `set3D`: `mIs3D = is3D`. -/
def Vbap.set3D (v : Vbap) ( is3D : Bool) : Vbap := { v with mIs3D := is3D }

/-- Modelled from the spec: `Vbap::triplets` (body missing): "read-only
introspection of the current Topology". -/
def Vbap.triplets (v : Vbap) : List SpeakerTriple := v.mTriplets

/-- Modelled from the spec: `Vbap::addTriple` (body missing): the Region is
appended to the ordered collection of Regions. -/
def Vbap.addTriple (v : Vbap) (st : SpeakerTriple) : Vbap :=
  { v with mTriplets := v.mTriplets ++ [st] }

/-! ## Topology Builder, 2D mode -/

/-- Modelled from the spec: the azimuth of a direction, as a rational key that
grows with the angle of the projection `(x, z)` onto the horizontal plane,
measured from the `+x` axis towards `+z` (the "diamond angle", in `[0, 4)`).
The Speaker Directory, which would supply the azimuth in degrees, is missing. -/
def azimuthKey (v : Vec3d) : ℚ :=
  if 0 ≤ v.z then
    if 0 ≤ v.x then v.z / (v.x + v.z) else 1 + (-v.x) / (-v.x + v.z)
  else
    if v.x < 0 then 2 + (-v.z) / (-v.x - v.z) else 3 + v.x / (v.x - v.z)

/-- Modelled from the spec: the separation of two directions projected "onto the
horizontal plane", as a squared distance (part of the missing `findSpeakerPairs`). -/
def sepSqr (a b : Vec3d) : ℚ := (a.x - b.x) ^ 2 + (a.z - b.z) ^ 2

/-- Modelled from the spec: whether two projected directions are "duplicates below
a minimum-separation threshold", the threshold being `MIN_LENGTH` (part of the
missing `findSpeakerPairs`). -/
def tooClose (a b : Vec3d) : Bool := decide (sepSqr a b < MIN_LENGTH ^ 2)

/-- Modelled from the spec: "discard duplicates below a minimum-separation
threshold": a speaker is dropped when an earlier kept speaker is too close. -/
def discardDuplicates (l : List (ℕ × Speaker)) : List (ℕ × Speaker) :=
  l.foldl (fun acc p => if acc.any (fun q => tooClose q.2.vec p.2.vec) then acc else acc ++ [p]) []

/-- Modelled from the spec: "sort by azimuth" (a stable insertion sort). -/
def sortByAzimuth (l : List (ℕ × Speaker)) : List (ℕ × Speaker) :=
  l.insertionSort (fun a b => azimuthKey a.2.vec ≤ azimuthKey b.2.vec)

/-- Modelled from the spec: "each cyclically-adjacent pair in sorted order
(including the wrap-around pair closing the circle)"; fewer than two elements
give no pair. -/
def cyclicPairs {α : Type} : List α → List (α × α)
  | [] => []
  | [_] => []
  | a :: b :: rest => List.zip (a :: b :: rest) (b :: rest ++ [a])

/-- Modelled from the spec: the pair Region of speakers `i` and `j`, loaded from
the speaker list, with the flag of `loadVectors` (part of the missing
`findSpeakerPairs`). -/
def mkPair (spkrs : List Speaker) (i j : ℕ) : SpeakerTriple × Bool :=
  (SpeakerTriple.ofIndices i j (-1)).loadVectors spkrs

/-- Modelled from the spec: `Vbap::findSpeakerPairs` (body missing): "project all
speaker directions onto the horizontal plane, discard duplicates below a
minimum-separation threshold, sort by azimuth.  Form a Region from each
cyclically-adjacent pair in sorted order"; a candidate whose basis is singular
"is discarded during building". -/
def findSpeakerPairs (spkrs : List Speaker) : List SpeakerTriple :=
  (cyclicPairs (sortByAzimuth (discardDuplicates spkrs.enum))).filterMap
    (fun c => if (mkPair spkrs c.1.1 c.2.1).2 then some (mkPair spkrs c.1.1 c.2.1).1 else none)

/-! ## Topology Builder, 3D mode -/

/-- Modelled from the spec: "all combinations of 3 speakers", in "ascending
combinatorial index": the triples `i < j < k` in lexicographic order. -/
def tripleCandidates (n : ℕ) : List (ℕ × ℕ × ℕ) :=
  (List.range n).flatMap fun i =>
    (List.range n).flatMap fun j =>
      (List.range n).filterMap fun k => if i < j ∧ j < k then some (i, j, k) else none

/-- Modelled from the spec: whether the point `c` lies strictly inside the
great-circle arc from `a` to `b`, a sign check of `c` against both end points
relative to the arc's normal (part of the missing `isCrossing`). -/
def insideArc (c a b : Vec3d) : Bool :=
  decide (0 < (a.cross c).dot (a.cross b)) && decide (0 < (c.cross b).dot (a.cross b))

/-- Modelled from the spec: `Vbap::isCrossing(c, li, lj, ln, lm)` (body missing):
whether the edge `li lj` and the edge `ln lm` intersect at the point `c` "on the
sphere surface, tested via a sign/orientation check". -/
def isCrossing (c li lj ln lm : Vec3d) : Bool := insideArc c li lj && insideArc c ln lm

/-- Modelled from the spec: the three edges of a triple's triangle (part of the
missing crossing test). -/
def SpeakerTriple.edges (t : SpeakerTriple) : List (Vec3d × Vec3d) :=
  [(t.s1Vec, t.s2Vec), (t.s2Vec, t.s3Vec), (t.s3Vec, t.s1Vec)]

/-- Modelled from the spec: whether two edges intersect: `isCrossing` at either of
the two points where their great circles meet (part of the missing
`findSpeakerTriplets`). -/
def edgesCross (e f : Vec3d × Vec3d) : Bool :=
  isCrossing ((e.1.cross e.2).cross (f.1.cross f.2)) e.1 e.2 f.1 f.2 ||
  isCrossing ((e.1.cross e.2).cross (f.1.cross f.2)).neg e.1 e.2 f.1 f.2

/-- Modelled from the spec: a triple "crosses" another when an "edge of the
candidate triangle intersects an edge of an existing triangle". -/
def triplesCross (a b : SpeakerTriple) : Bool :=
  a.edges.any fun e => b.edges.any fun f => edgesCross e f

/-- Modelled from the spec: whether the three speakers of a triple "share the same
elevation", that is the same height `y` of their unit direction vectors (part
of the missing `findSpeakerTriplets`). -/
def sameElevation (t : SpeakerTriple) : Bool :=
  decide (t.s1Vec.y = t.s2Vec.y) && decide (t.s2Vec.y = t.s3Vec.y)

/-- Modelled from the spec: the triple Region of speakers `i`, `j`, `k`, loaded
from the speaker list, with the flag of `loadVectors` (part of the missing
`findSpeakerTriplets`). -/
def mkTriple (spkrs : List Speaker) (c : ℕ × ℕ × ℕ) : SpeakerTriple × Bool :=
  (SpeakerTriple.ofIndices c.1 c.2.1 c.2.2).loadVectors spkrs

/-- Modelled from the spec: the acceptance predicate of a candidate triple: its
basis is non-singular, it is not discarded for sharing one elevation (unless
`KEEP_SAME_ELEVATION` is set) and it "does not cross any already-accepted Region". -/
def acceptable (spkrs : List Speaker) (options : ℕ) (acc : List SpeakerTriple)
    (c : ℕ × ℕ × ℕ) : Bool :=
  (mkTriple spkrs c).2 &&
  (decide (options &&& KEEP_SAME_ELEVATION ≠ 0) || !sameElevation (mkTriple spkrs c).1) &&
  !acc.any (fun u => triplesCross (mkTriple spkrs c).1 u)

/-- Modelled from the spec: one step of the missing `findSpeakerTriplets`: an
acceptable candidate is appended to the accepted list, any other is dropped. -/
def acceptStep (spkrs : List Speaker) (options : ℕ) (acc : List SpeakerTriple)
    (c : ℕ × ℕ × ℕ) : List SpeakerTriple :=
  if acceptable spkrs options acc c then acc ++ [(mkTriple spkrs c).1] else acc

/-- Modelled from the spec: the missing `findSpeakerTriplets` run over a list of
candidates, in their order, from an accepted list `acc`. -/
def acceptAll (spkrs : List Speaker) (options : ℕ) (acc : List SpeakerTriple)
    (cands : List (ℕ × ℕ × ℕ)) : List SpeakerTriple :=
  cands.foldl (acceptStep spkrs options) acc

/-- Modelled from the spec: `Vbap::findSpeakerTriplets` (body missing): the
candidates are evaluated "in a stable order" against the Regions accepted so far. -/
def findSpeakerTriplets (spkrs : List Speaker) (options : ℕ) : List SpeakerTriple :=
  acceptAll spkrs options [] (tripleCandidates spkrs.length)

/-! ## Configuration interface -/

/-- Modelled from the spec: `Vbap::compile` (body missing): it "triggers Topology
Builder"; the Regions are "invalidated and rebuilt whenever the Topology Builder
is invoked again", and a layout that "yields zero valid Regions" is reported as
a diagnostic while the panner stays operable with an empty Topology. -/
def Vbap.compile (v : Vbap) : Vbap × Option VbapError :=
  let ts := if v.mIs3D then findSpeakerTriplets v.mSpeakers v.mOptions
            else findSpeakerPairs v.mSpeakers
  ({ v with mTriplets := ts },
   if ts.isEmpty then some VbapError.ConfigurationDegenerate else none)

/-- Modelled from the spec: `Vbap::makeTriple(int s1, int s2, int s3 = -1)` (body
missing): "a Region can be injected directly from caller-specified speaker
indices, bypassing triangulation"; "out-of-range indices" are "reported
synchronously to the caller at the point of the offending call" and leave the
panner as it was.  As in the builders, a candidate whose "basis is not
invertible within tolerance" is "discarded" and "never surfaced to the caller
as an error", which keeps the invariant that "every Region's direction vectors
are linearly independent" and "a Region's 2-3 member indices are distinct". -/
def Vbap.makeTriple (v : Vbap) (s1 s2 s3 : ℤ) : Vbap × Option VbapError :=
  if validIndex v.mSpeakers s1 && validIndex v.mSpeakers s2 && validIndex v.mSpeakers s3 then
    if ((SpeakerTriple.ofIndices s1 s2 s3).loadVectors v.mSpeakers).2 then
      (v.addTriple ((SpeakerTriple.ofIndices s1 s2 s3).loadVectors v.mSpeakers).1, none)
    else
      (v, none)
  else
    (v, some VbapError.InvalidManualTriple)

/-- Modelled from the spec: the key of `mPhantomChannels` (a map from
`unsigned int`) for the `int` channel index of `makePhantomChannel` (body
missing): its conversion to `unsigned int`. -/
def phantomKey (channelIndex : ℤ) : ℕ := (channelIndex % 4294967296).toNat

/-- Modelled from the spec: `Vbap::makePhantomChannel` (body missing): "a channel
index can be marked phantom with an assigned list of real output channels";
"a phantom mapping with no assigned outputs" is "reported synchronously to the
caller at the point of the offending call" and leaves the panner as it was. -/
def Vbap.makePhantomChannel (v : Vbap) (channelIndex : ℤ) (assignedOutputs : List ℕ) :
    Vbap × Option VbapError :=
  if assignedOutputs.isEmpty then
    (v, some VbapError.InvalidPhantomMapping)
  else
    ({ v with mPhantomChannels :=
        (phantomKey channelIndex, assignedOutputs) ::
          v.mPhantomChannels.filter (fun e => e.1 ≠ phantomKey channelIndex) }, none)

/-! ## Gain Solver, Region Locator and Render Adapter -/

/-- Modelled from the spec: the raw gains of a Region for a query direction,
"gains = basis⁻¹ · query_direction"; a Region marked invalid has none (zero). -/
def rawGains (vecA : Vec3d) (speak : SpeakerTriple) : Vec3d :=
  match speak.mat with
  | some m => m.mulVec vecA
  | none => Vec3d.fill 0

/-- Modelled from the spec: power normalisation of raw gains, "so that the power
sum (sum of squares) equals a target value (1.0 for unit output power)";
"degenerate divisions (zero-length query vector, near-zero power sum) are
clamped to an all-zero gain vector". -/
def normalizeGains (nu : Numerics) (vecA g : Vec3d) : Vec3d :=
  if vecA.magSqr = 0 ∨ g.magSqr ≤ nu.minPower then Vec3d.fill 0
  else g.divScalar (nu.sqrt g.magSqr)

/-- Modelled from the spec: `Vbap::computeGains(vecA, speak)` (body missing), the
Gain Solver: the raw gains of the Region, power-normalised. -/
def computeGains (nu : Numerics) (vecA : Vec3d) (speak : SpeakerTriple) : Vec3d :=
  normalizeGains nu vecA (rawGains vecA speak)

/-- Modelled from the spec: whether the Region Locator accepts a Region for a
query direction: the Region is valid and "the Gain Solver's raw output is
all-non-negative within a small negative-epsilon tolerance". -/
def accepts (nu : Numerics) (vecA : Vec3d) (speak : SpeakerTriple) : Bool :=
  speak.mat.isSome &&
  decide (-nu.epsilon ≤ (rawGains vecA speak).x) &&
  decide (-nu.epsilon ≤ (rawGains vecA speak).y) &&
  decide (-nu.epsilon ≤ (rawGains vecA speak).z)

/-- Modelled from the spec: the Region Locator (its code, in `renderSample` and
`renderBuffer`, is missing): it "scans the Topology's Region list in its stable
build order and returns the first match; if none match, returns no coverage". -/
def locate (nu : Numerics) (regions : List SpeakerTriple) (vecA : Vec3d) :
    Option SpeakerTriple :=
  regions.find? (accepts nu vecA)

/-- Modelled from the spec: the contribution of one member speaker: "if that
speaker's channel is not phantom" its gain goes to that channel; "if phantom,
divide the gain among the channel's assigned real outputs", "split evenly". -/
def channelGains (phantom : List (ℕ × List ℕ)) (chan : ℕ) (g : ℚ) : List (ℕ × ℚ) :=
  match phantom.lookup chan with
  | none => [(chan, g)]
  | some outs => outs.map fun c => (c, g / (outs.length : ℚ))

/-- Modelled from the spec: the contributions of "each of the Region's member
speakers" (two for a pair) for the gains `g` (part of the missing render code). -/
def regionGains (phantom : List (ℕ × List ℕ)) (t : SpeakerTriple) (g : Vec3d) : List (ℕ × ℚ) :=
  channelGains phantom t.s1Chan g.x ++ channelGains phantom t.s2Chan g.y ++
    (if t.s3 = -1 then [] else channelGains phantom t.s3Chan g.z)

/-- Modelled from the spec: "multiply the input sample by its gain and accumulate
into that channel", at one frame (part of the missing render code). -/
def accumulate (out : AudioOut) (frame : ℕ) (sample : ℚ) (cg : List (ℕ × ℚ)) : AudioOut :=
  cg.foldl (fun o p c f => if c = p.1 ∧ f = frame then o c f + p.2 * sample else o c f) out

/-- Modelled from the spec: `Vbap::renderSample` (body missing): "single-sample
render into the current buffer"; a direction without coverage leaves silence. -/
def Vbap.renderSample (nu : Numerics) (v : Vbap) (out : AudioOut) (reldir : Vec3d)
    (sample : ℚ) (frameIndex : ℕ) : AudioOut :=
  match locate nu v.mTriplets reldir with
  | none => out
  | some t => accumulate out frameIndex sample
      (regionGains v.mPhantomChannels t (computeGains nu reldir t))

/-- Modelled from the spec: `Vbap::renderBuffer` (body missing): "block render,
one source position for the whole block". -/
def Vbap.renderBuffer (nu : Numerics) (v : Vbap) (out : AudioOut) (pos : Vec3d)
    (samples : List ℚ) (numFrames : ℕ) : AudioOut :=
  match locate nu v.mTriplets pos with
  | none => out
  | some t => (List.range numFrames).foldl
      (fun o f => accumulate o f (samples.getD f 0)
        (regionGains v.mPhantomChannels t (computeGains nu pos t))) out

/-- The exact numeric environment: `ratSqrt`, no tolerance, no clamping above zero power. -/
def exactNumerics : Numerics := ⟨ratSqrt, 0, 0⟩

/-! ## Predicates used in the statements -/

/-- A Region is valid when it caches the inverse of a basis with non-zero determinant. -/
def SpeakerTriple.Valid (t : SpeakerTriple) : Prop :=
  t.mat = some t.inverse ∧ t.det ≠ 0

/-- A Region is loaded from a speaker list when `loadVectors` leaves it as it is
and reports an invertible basis. -/
def SpeakerTriple.Loaded (spkrs : List Speaker) (t : SpeakerTriple) : Prop :=
  t.loadVectors spkrs = (t, true)

/-- The total gain that a list of contributions routes to channel `c`. -/
def gainAt (cg : List (ℕ × ℚ)) (c : ℕ) : ℚ :=
  ((cg.filter (fun p => p.1 = c)).map Prod.snd).sum

/-- A layout encircles the listener when, in azimuth order, each speaker is
followed (the last one by the first) by a speaker less than half a turn further on. -/
def encircles (spkrs : List Speaker) : Bool :=
  (cyclicPairs (sortByAzimuth spkrs.enum)).all fun c => decide (0 < det2 c.1.2.vec c.2.2.vec)

/-! ## Sample layouts -/

/-- Three speakers in the horizontal plane, with a gap of more than half a turn
between the first and the second in azimuth order. -/
def layoutWide : List Speaker :=
  [⟨⟨1, 0, 0⟩, 0⟩, ⟨⟨-24 / 25, 0, -7 / 25⟩, 1⟩, ⟨⟨-3 / 5, 0, -4 / 5⟩, 2⟩]

/-- Four speakers a quarter turn apart and a fifth one, a unit vector at a
distinct azimuth, closer than `MIN_LENGTH` to the first. -/
def layoutNear : List Speaker :=
  [⟨⟨1, 0, 0⟩, 0⟩, ⟨⟨0, 0, 1⟩, 1⟩, ⟨⟨-1, 0, 0⟩, 2⟩, ⟨⟨0, 0, -1⟩, 3⟩,
   ⟨⟨999999999999 / 1000000000001, 0, 2000000 / 1000000000001⟩, 4⟩]

/-- Four speakers a quarter turn apart in the horizontal plane. -/
def layoutSquare : List Speaker :=
  [⟨⟨1, 0, 0⟩, 0⟩, ⟨⟨0, 0, 1⟩, 1⟩, ⟨⟨-1, 0, 0⟩, 2⟩, ⟨⟨0, 0, -1⟩, 3⟩]

/-- Six speakers at the vertices of an octahedron. -/
def layoutOctahedron : List Speaker :=
  [⟨⟨1, 0, 0⟩, 0⟩, ⟨⟨0, 0, 1⟩, 1⟩, ⟨⟨-1, 0, 0⟩, 2⟩, ⟨⟨0, 0, -1⟩, 3⟩,
   ⟨⟨0, 1, 0⟩, 4⟩, ⟨⟨0, -1, 0⟩, 5⟩]

/-- The silent output buffer. -/
def silence : AudioOut := fun _ _ => 0

/-- The panner for `layoutSquare` in 2D mode, before compilation. -/
def sampleSquare : Vbap := Vbap.new layoutSquare false

/-- The pair Region of the first two speakers of `layoutSquare`. -/
def samplePair : SpeakerTriple := (mkPair layoutSquare 0 1).1

/-- The compiled square layout with the first speaker's channel made phantom,
assigned to channels 1 and 3. -/
def samplePhantom : Vbap := (sampleSquare.compile.1.makePhantomChannel 0 [1, 3]).1

/-- The class template `Vec<N, T>`: a fixed-size vector of `N` elements of type `T`. -/
abbrev Vec (N : ℕ) (T : Type) := Fin N → T

namespace Vec

variable {N : ℕ} {T : Type}

/-- The read `(*this)[i]` of `operator[](size_t i)`, which has no bounds check.
For `N = 0` the storage `VecElems<0, T>` is the static member `x`, initialised
to 0, and that is what element 0 of an empty vector reads; any other read out
of range is given the value 0. -/
def elem [Zero T] (a : Vec N T) (i : ℕ) : T := if h : i < N then a ⟨i, h⟩ else 0

/-- The operator `operator+(const Vec &v)`: `(*this)[i] += v[i]` on a copy. -/
def add [Add T] (a v : Vec N T) : Vec N T := fun i => a i + v i

/-- The operator `operator-(const Vec &v)`: `(*this)[i] -= v[i]` on a copy. -/
def sub [Sub T] (a v : Vec N T) : Vec N T := fun i => a i - v i

/-- The operator `operator*(const T &v)`: `(*this)[i] *= v` on a copy; also
`operator*(const T &s, const Vec &v)`, which returns `v * s`. -/
def scale [Mul T] (a : Vec N T) (v : T) : Vec N T := fun i => a i * v

/-- The method `dot`: `r = (*this)[0] * v[0]`, then `r += (*this)[i] * v[i]` for
`i = 1, ..., N - 1`. -/
def dot [Zero T] [Add T] [Mul T] (a v : Vec N T) : T :=
  (List.range' 1 (N - 1)).foldl (fun r i => r + elem a i * elem v i) (elem a 0 * elem v 0)

/-- The method `magSqr`: `dot(*this)`. -/
def magSqr [Zero T] [Add T] [Mul T] (a : Vec N T) : T := dot a a

/-- The method `sum`: `r = (*this)[0]`, then `r += (*this)[i]` for `i = 1, ..., N - 1`. -/
def sum [Zero T] [Add T] (a : Vec N T) : T :=
  (List.range' 1 (N - 1)).foldl (fun r i => r + elem a i) (elem a 0)

/-- The method `mean`: `static const T invSize = 1. / size(); return sum() * invSize;`.
The quotient `1. / size()` is a `double`; `conv` is its conversion to `T`. -/
def mean [Zero T] [Add T] [Mul T] (conv : ℚ → T) (a : Vec N T) : T :=
  sum a * conv (1 / (N : ℚ))

/-- The method `sgn(T mag)`: element `v` gives `-mag` when `v < T(0)`, `mag` when
`v > T(0)` and `T(0)` otherwise. -/
def sgn [Zero T] [Neg T] [LT T] [DecidableRel (fun x y : T => x < y)] (a : Vec N T) (mag : T) :
    Vec N T :=
  fun i => if a i < 0 then -mag else if 0 < a i then mag else 0

/-- The method `find`: the index of the first element equal to `v`, or -1. -/
def find [DecidableEq T] (a : Vec N T) (v : T) : ℤ :=
  match (List.finRange N).find? (fun i => decide (a i = v)) with
  | some i => (i.val : ℤ)
  | none => -1

/-- The method `indexOfMin`: `j = 0`, then for `i = 1, ..., N - 1`, `j = i` when
`(*this)[i] < (*this)[j]`. -/
def indexOfMin [Zero T] [LT T] [DecidableRel (fun x y : T => x < y)] (a : Vec N T) : ℕ :=
  (List.range' 1 (N - 1)).foldl (fun j i => if elem a i < elem a j then i else j) 0

/-- The method `min`: `(*this)[indexOfMin()]`. -/
def min [Zero T] [LT T] [DecidableRel (fun x y : T => x < y)] (a : Vec N T) : T :=
  elem a (indexOfMin a)

/-- The operator `operator==(const T &v)`: false at the first element different
from `v`, true when there is none. -/
def eqScalar [DecidableEq T] (a : Vec N T) (v : T) : Bool :=
  (List.finRange N).all (fun i => decide (a i = v))

/-- The operator `operator!=(const T &v)`: `!(*this == v)`. -/
def neScalar [DecidableEq T] (a : Vec N T) (v : T) : Bool := !eqScalar a v

end Vec

/-- The conversion of a `double` to `int`, which truncates toward zero. -/
def intOfDouble (q : ℚ) : ℤ := if 0 ≤ q then ⌊q⌋ else ⌈q⌉

/-- The function `roundi`: `v + v.sgn(T(0.5))`, converted to `Vec<N, int>` element by element. -/
def roundi {N : ℕ} (v : Vec N ℚ) : Vec N ℤ :=
  fun i => intOfDouble (Vec.add v (Vec.sgn v (1 / 2)) i)

/-- The function `closestPointOnLineSegment(frac, a, b, p)`: the value written to
`frac` and the point returned. -/
def closestPointOnLineSegment {N : ℕ} {T : Type} [LinearOrderedField T]
    (a b p : Vec N T) : T × Vec N T :=
  let ab := Vec.sub b a
  let dot := Vec.dot (Vec.sub p a) ab
  let magAB := Vec.magSqr ab
  let frac := if magAB > 0 then dot / magAB else 0
  if frac ≤ 0 then (frac, a)
  else if frac ≥ 1 then (frac, b)
  else (frac, Vec.add a (Vec.scale ab frac))

/-- The function `linePlaneIntersection(d, l, l0, n, p0)`: the value returned and
the content of the out-parameter `d` after the call. -/
def linePlaneIntersection {N : ℕ} {T : Type} [CommRing T] [Div T] [DecidableEq T]
    (d : T) (l l0 n p0 : Vec N T) : ℤ × T :=
  let a := Vec.dot (Vec.sub p0 l0) n
  let b := Vec.dot l n
  if b = 0 then
    if a = 0 then (2, d) else (0, d)
  else (1, a / b)

namespace Vec

variable {N : ℕ} {T : Type}

/-- The write `(*this)[i] = x` of `operator[](size_t i)`, which has no bounds
check; a write out of range, which the functions below never make, is left out. -/
def setElem (a : Vec N T) (i : ℕ) (x : T) : Vec N T := fun k => if k.val = i then x else a k

/-- The operator `operator=(const T &v)`: `(*this)[i] = v` for `i = 0, ..., N - 1`. -/
def assignAll (a : Vec N T) (v : T) : Vec N T :=
  (List.range' 0 N).foldl (fun r i => setElem r i v) a

/-- The method `set(std::initializer_list<T> v)`.  A list of size 1 is assigned to
all elements; otherwise, with `M = N < v.size() ? N : int(v.size())`, the first
`M` elements are copied from the list and the elements from `M` to `N - 1` are
set to `T()`.  The list read `v.begin()[i]` is only made below `v.size()`. -/
def setList [Zero T] (a : Vec N T) (v : List T) : Vec N T :=
  if v.length = 1 then assignAll a (v.getD 0 0)
  else
    (List.range' (if N < v.length then N else v.length)
        (N - (if N < v.length then N else v.length))).foldl
      (fun r i => setElem r i 0)
      ((List.range' 0 (if N < v.length then N else v.length)).foldl
        (fun r i => setElem r i (v.getD i 0)) a)

/-- The constructor `Vec(std::initializer_list<T> v)`: `set(v)` on the storage of
the new vector, whose prior content `a` is not initialised. -/
def ofInitializerList [Zero T] (a : Vec N T) (v : List T) : Vec N T := setList a v

/-- The method `swap(int i, int j)`: `std::swap((*this)[i], (*this)[j])`, for
indices in range (the source does not check them). -/
def swap (a : Vec N T) (i j : Fin N) : Vec N T :=
  Function.update (Function.update a i (a j)) j (a i)

/-- The method `rotate90(int dim1, int dim2)`: `(*this)[dim2] = -(*this)[dim2]`, then
`swap(dim1, dim2)`, for dimensions in range (the source does not check them). -/
def rotate90 [Neg T] (a : Vec N T) (dim1 dim2 : Fin N) : Vec N T :=
  swap (Function.update a dim2 (-(a dim2))) dim1 dim2

/-- The method `projection(const Vec &u)`: `dot(u) * u`, the product
`operator*(const T &s, const Vec &v)` being `v * s`. -/
def projection [Zero T] [Add T] [Mul T] (a u : Vec N T) : Vec N T := scale u (dot a u)

/-- The method `rejection(const Vec &u)`: `(*this) - projection(u)`. -/
def rejection [Zero T] [Add T] [Sub T] [Mul T] (a u : Vec N T) : Vec N T :=
  sub a (projection a u)

end Vec

/-! ## Lemmas on Regions and their gains -/

theorem Vec3d.ext_iff3 (a b : Vec3d) : a = b ↔ a.x = b.x ∧ a.y = b.y ∧ a.z = b.z := by
  cases a; cases b; simp

theorem rawGains_s1 (t : SpeakerTriple) (h : t.Valid) : rawGains t.s1Vec t = ⟨1, 0, 0⟩ := by
  obtain ⟨hm, hd⟩ := h
  by_cases h3 : t.s3 = -1
  · have hd2 : t.s1Vec.x * t.s2Vec.z - t.s1Vec.z * t.s2Vec.x ≠ 0 := by
      simpa [SpeakerTriple.det, h3, det2] using hd
    simp only [rawGains, hm, Mat3d.mulVec, SpeakerTriple.inverse, SpeakerTriple.det, h3, if_true,
      Vec3d.dot, Vec3d.divScalar, Vec3d.fill, det2, Vec3d.ext_iff3]
    refine ⟨?_, ?_, ?_⟩
    · field_simp; ring
    · field_simp; ring
    · ring
  · have hd3 : t.s1Vec.x * (t.s2Vec.y * t.s3Vec.z - t.s2Vec.z * t.s3Vec.y) +
        t.s1Vec.y * (t.s2Vec.z * t.s3Vec.x - t.s2Vec.x * t.s3Vec.z) +
        t.s1Vec.z * (t.s2Vec.x * t.s3Vec.y - t.s2Vec.y * t.s3Vec.x) ≠ 0 := by
      simpa [SpeakerTriple.det, h3, det3, Vec3d.dot, Vec3d.cross] using hd
    simp only [rawGains, hm, Mat3d.mulVec, SpeakerTriple.inverse, SpeakerTriple.det, h3, if_false,
      Vec3d.dot, Vec3d.divScalar, Vec3d.cross, det3, Vec3d.ext_iff3]
    refine ⟨?_, ?_, ?_⟩
    · field_simp; ring
    · field_simp; ring
    · field_simp; ring

theorem rawGains_s2 (t : SpeakerTriple) (h : t.Valid) : rawGains t.s2Vec t = ⟨0, 1, 0⟩ := by
  obtain ⟨hm, hd⟩ := h
  by_cases h3 : t.s3 = -1
  · have hd2 : t.s1Vec.x * t.s2Vec.z - t.s1Vec.z * t.s2Vec.x ≠ 0 := by
      simpa [SpeakerTriple.det, h3, det2] using hd
    simp only [rawGains, hm, Mat3d.mulVec, SpeakerTriple.inverse, SpeakerTriple.det, h3, if_true,
      Vec3d.dot, Vec3d.divScalar, Vec3d.fill, det2, Vec3d.ext_iff3]
    refine ⟨?_, ?_, ?_⟩
    · field_simp; ring
    · field_simp; ring
    · ring
  · have hd3 : t.s1Vec.x * (t.s2Vec.y * t.s3Vec.z - t.s2Vec.z * t.s3Vec.y) +
        t.s1Vec.y * (t.s2Vec.z * t.s3Vec.x - t.s2Vec.x * t.s3Vec.z) +
        t.s1Vec.z * (t.s2Vec.x * t.s3Vec.y - t.s2Vec.y * t.s3Vec.x) ≠ 0 := by
      simpa [SpeakerTriple.det, h3, det3, Vec3d.dot, Vec3d.cross] using hd
    simp only [rawGains, hm, Mat3d.mulVec, SpeakerTriple.inverse, SpeakerTriple.det, h3, if_false,
      Vec3d.dot, Vec3d.divScalar, Vec3d.cross, det3, Vec3d.ext_iff3]
    refine ⟨?_, ?_, ?_⟩
    · field_simp; ring
    · field_simp; ring
    · field_simp; ring

theorem rawGains_s3 (t : SpeakerTriple) (h : t.Valid) (h3 : t.s3 ≠ -1) :
    rawGains t.s3Vec t = ⟨0, 0, 1⟩ := by
  obtain ⟨hm, hd⟩ := h
  have hd3 : t.s1Vec.x * (t.s2Vec.y * t.s3Vec.z - t.s2Vec.z * t.s3Vec.y) +
      t.s1Vec.y * (t.s2Vec.z * t.s3Vec.x - t.s2Vec.x * t.s3Vec.z) +
      t.s1Vec.z * (t.s2Vec.x * t.s3Vec.y - t.s2Vec.y * t.s3Vec.x) ≠ 0 := by
    simpa [SpeakerTriple.det, h3, det3, Vec3d.dot, Vec3d.cross] using hd
  simp only [rawGains, hm, Mat3d.mulVec, SpeakerTriple.inverse, SpeakerTriple.det, h3, if_false,
    Vec3d.dot, Vec3d.divScalar, Vec3d.cross, det3, Vec3d.ext_iff3]
  refine ⟨?_, ?_, ?_⟩
  · field_simp; ring
  · field_simp; ring
  · field_simp; ring

/-- The member directions of a valid Region are not the zero vector. -/
theorem Valid.magSqr_ne_zero (t : SpeakerTriple) (h : t.Valid) :
    t.s1Vec.magSqr ≠ 0 ∧ t.s2Vec.magSqr ≠ 0 ∧ (t.s3 ≠ -1 → t.s3Vec.magSqr ≠ 0) := by
  have key : ∀ a : Vec3d, a.magSqr = 0 → a.x = 0 ∧ a.y = 0 ∧ a.z = 0 := by
    intro a ha
    simp only [Vec3d.magSqr, Vec3d.dot] at ha
    have hx := mul_self_nonneg a.x
    have hy := mul_self_nonneg a.y
    have hz := mul_self_nonneg a.z
    refine ⟨?_, ?_, ?_⟩ <;> nlinarith
  obtain ⟨_, hd⟩ := h
  refine ⟨?_, ?_, ?_⟩
  · intro h0
    obtain ⟨hx, hy, hz⟩ := key _ h0
    apply hd
    simp only [SpeakerTriple.det, det2, det3, Vec3d.dot, Vec3d.cross, hx, hy, hz]
    split_ifs <;> ring
  · intro h0
    obtain ⟨hx, hy, hz⟩ := key _ h0
    apply hd
    simp only [SpeakerTriple.det, det2, det3, Vec3d.dot, Vec3d.cross, hx, hy, hz]
    split_ifs <;> ring
  · intro h3 h0
    obtain ⟨hx, hy, hz⟩ := key _ h0
    apply hd
    simp only [SpeakerTriple.det, det2, det3, Vec3d.dot, Vec3d.cross, hx, hy, hz, h3, if_false]
    ring

/-- Power normalisation leaves a unit coordinate vector of gains as it is. -/
theorem normalizeGains_unit (nu : Numerics) (q g : Vec3d) (hq : q.magSqr ≠ 0)
    (hg : g.magSqr = 1) (hsqrt : nu.sqrt 1 = 1) (hmin : nu.minPower < 1) :
    normalizeGains nu q g = g := by
  have hn : ¬ (q.magSqr = 0 ∨ g.magSqr ≤ nu.minPower) := by
    rw [hg]; push_neg; exact ⟨hq, hmin⟩
  unfold normalizeGains
  rw [if_neg hn, hg, hsqrt]
  simp [Vec3d.divScalar]

/-- A loaded Region is valid, and its vectors and channels are those of its member speakers. -/
theorem Loaded.valid (spkrs : List Speaker) (t : SpeakerTriple) (h : t.Loaded spkrs) :
    t.Valid ∧ MIN_VOLUME_TO_LENGTH_RATIO < |t.det| ∧
    t.s1Vec = speakerVec spkrs t.s1 ∧ t.s2Vec = speakerVec spkrs t.s2 ∧
    t.s3Vec = speakerVec spkrs t.s3 ∧ t.s1Chan = speakerChan spkrs t.s1 ∧
    t.s2Chan = speakerChan spkrs t.s2 ∧ t.s3Chan = speakerChan spkrs t.s3 := by
  unfold SpeakerTriple.Loaded SpeakerTriple.loadVectors at h
  simp only at h
  split_ifs at h with hdet
  · have h1 := (Prod.mk.inj h).1
    have e1 : speakerVec spkrs t.s1 = t.s1Vec := congrArg SpeakerTriple.s1Vec h1
    have e2 : speakerVec spkrs t.s2 = t.s2Vec := congrArg SpeakerTriple.s2Vec h1
    have e3 : speakerVec spkrs t.s3 = t.s3Vec := congrArg SpeakerTriple.s3Vec h1
    have c1 : speakerChan spkrs t.s1 = t.s1Chan := congrArg SpeakerTriple.s1Chan h1
    have c2 : speakerChan spkrs t.s2 = t.s2Chan := congrArg SpeakerTriple.s2Chan h1
    have c3 : speakerChan spkrs t.s3 = t.s3Chan := congrArg SpeakerTriple.s3Chan h1
    have hm : some (SpeakerTriple.inverse _) = t.mat := congrArg SpeakerTriple.mat h1
    simp only [SpeakerTriple.det, SpeakerTriple.inverse, e1, e2, e3] at hdet hm
    have hdet2 : MIN_VOLUME_TO_LENGTH_RATIO < |t.det| := by
      simpa only [SpeakerTriple.det] using hdet
    have hpos : (0 : ℚ) < MIN_VOLUME_TO_LENGTH_RATIO := by
      norm_num [ MIN_VOLUME_TO_LENGTH_RATIO]
    refine ⟨⟨?_, ?_⟩, hdet2, e1.symm, e2.symm, e3.symm, c1.symm, c2.symm, c3.symm⟩
    · rw [← hm]; simp only [SpeakerTriple.inverse, SpeakerTriple.det]
    · intro h0
      rw [h0, abs_zero] at hdet2
      exact absurd (lt_trans hpos hdet2) (lt_irrefl _)
  · simp at h

/-- The result of `loadVectors` keeps the member indices. -/
theorem loadVectors_indices (x : SpeakerTriple) (spkrs : List Speaker) :
    (x.loadVectors spkrs).1.s1 = x.s1 ∧ (x.loadVectors spkrs).1.s2 = x.s2 ∧
    (x.loadVectors spkrs).1.s3 = x.s3 := by
  unfold SpeakerTriple.loadVectors
  simp only
  split_ifs <;> exact ⟨rfl, rfl, rfl⟩

/-- A Region that `loadVectors` reports as invertible is loaded. -/
theorem loadVectors_loaded (x : SpeakerTriple) (spkrs : List Speaker)
    (h : (x.loadVectors spkrs).2 = true) : (x.loadVectors spkrs).1.Loaded spkrs := by
  unfold SpeakerTriple.Loaded
  unfold SpeakerTriple.loadVectors at h ⊢
  simp only at h ⊢
  split_ifs at h with hdet
  · simp only [if_pos hdet]
    simp only [SpeakerTriple.det] at hdet ⊢
    simp only [if_pos hdet]
    simp only [SpeakerTriple.inverse, SpeakerTriple.det]

/-- Every Region built by `findSpeakerPairs` is a pair loaded from the speaker list. -/
theorem findSpeakerPairs_loaded (spkrs : List Speaker) (t : SpeakerTriple)
    (ht : t ∈ findSpeakerPairs spkrs) : t.Loaded spkrs ∧ t.s3 = -1 := by
  unfold findSpeakerPairs at ht
  rw [List.mem_filterMap] at ht
  obtain ⟨c, _, hc⟩ := ht
  split_ifs at hc with hflag
  · have e : (mkPair spkrs c.1.1 c.2.1).1 = t := Option.some.inj hc
    rw [← e]
    exact ⟨loadVectors_loaded _ _ hflag, (loadVectors_indices _ _).2.2⟩

/-- Every Region accepted by the 3D builder was in the list before or is a triple
loaded from the speaker list. -/
theorem acceptAll_mem (spkrs : List Speaker) (options : ℕ) (cands : List (ℕ × ℕ × ℕ)) :
    ∀ (acc : List SpeakerTriple) (t : SpeakerTriple), t ∈ acceptAll spkrs options acc cands →
      t ∈ acc ∨ ∃ c ∈ cands, t = (mkTriple spkrs c).1 ∧ (mkTriple spkrs c).2 = true := by
  induction cands with
  | nil => intro acc t ht; exact Or.inl ht
  | cons c cs ih =>
    intro acc t ht
    have ht2 : t ∈ acceptAll spkrs options (acceptStep spkrs options acc c) cs := ht
    rcases ih _ t ht2 with h | ⟨d, hd, hd2⟩
    · unfold acceptStep at h
      split_ifs at h with hacc
      · rcases List.mem_append.mp h with h1 | h1
        · exact Or.inl h1
        · refine Or.inr ⟨c, List.mem_cons_self _ _, List.mem_singleton.mp h1, ?_⟩
          unfold acceptable at hacc
          simp only [Bool.and_eq_true] at hacc
          exact hacc.1.1
      · exact Or.inl h
    · exact Or.inr ⟨d, List.mem_cons_of_mem _ hd, hd2⟩

/-- Every Region built by `findSpeakerTriplets` is a triple loaded from the speaker list. -/
theorem findSpeakerTriplets_loaded (spkrs : List Speaker) (options : ℕ) (t : SpeakerTriple)
    (ht : t ∈ findSpeakerTriplets spkrs options) : t.Loaded spkrs ∧ t.s3 ≠ -1 := by
  rcases acceptAll_mem spkrs options _ [] t ht with h | ⟨c, _, hc, hflag⟩
  · simp at h
  · rw [hc]
    refine ⟨loadVectors_loaded _ _ hflag, ?_⟩
    have := (loadVectors_indices (SpeakerTriple.ofIndices c.1 c.2.1 c.2.2) spkrs).2.2
    unfold mkTriple
    rw [this]
    simp only [SpeakerTriple.ofIndices]
    omega

/-- Every Region of a compiled panner is loaded from its speaker list. -/
theorem compile_loaded (v : Vbap) (t : SpeakerTriple) (ht : t ∈ v.compile.1.mTriplets) :
    t.Loaded v.mSpeakers := by
  unfold Vbap.compile at ht
  simp only at ht
  split_ifs at ht
  · exact (findSpeakerTriplets_loaded _ _ t ht).1
  · exact (findSpeakerPairs_loaded _ t ht).1

/-- The gains of a valid Region for the direction of each of its members. -/
theorem computeGains_valid (nu : Numerics) (t : SpeakerTriple) (h : t.Valid)
    (hsqrt : nu.sqrt 1 = 1) (hmin : nu.minPower < 1) :
    computeGains nu t.s1Vec t = ⟨1, 0, 0⟩ ∧ computeGains nu t.s2Vec t = ⟨0, 1, 0⟩ ∧
    (t.s3 ≠ -1 → computeGains nu t.s3Vec t = ⟨0, 0, 1⟩) := by
  obtain ⟨n1, n2, n3⟩ := Valid.magSqr_ne_zero t h
  refine ⟨?_, ?_, ?_⟩
  · unfold computeGains
    rw [rawGains_s1 t h]
    exact normalizeGains_unit nu _ _ n1 (by norm_num [Vec3d.magSqr, Vec3d.dot]) hsqrt hmin
  · unfold computeGains
    rw [rawGains_s2 t h]
    exact normalizeGains_unit nu _ _ n2 (by norm_num [Vec3d.magSqr, Vec3d.dot]) hsqrt hmin
  · intro h3
    unfold computeGains
    rw [rawGains_s3 t h h3]
    exact normalizeGains_unit nu _ _ (n3 h3) (by norm_num [Vec3d.magSqr, Vec3d.dot]) hsqrt hmin

/-! ## The model on sample layouts -/

/-- The square layout in 2D mode gives the four pairs of neighbours, the last one
closing the circle. -/
theorem findSpeakerPairs_layoutSquare :
    (findSpeakerPairs layoutSquare).map SpeakerTriple.members
      = [[0, 1], [1, 2], [2, 3], [3, 0]] := by
  decide!

/-- The octahedron layout in 3D mode gives its eight faces: the triples through
two opposite vertices are singular, and a triple of the horizontal square is
discarded for sharing one elevation. -/
theorem findSpeakerTriplets_layoutOctahedron :
    (findSpeakerTriplets layoutOctahedron 0).map SpeakerTriple.members
      = [[0, 1, 4], [0, 1, 5], [0, 3, 4], [0, 3, 5], [1, 2, 4], [1, 2, 5], [2, 3, 4], [2, 3, 5]] := by
  decide!

/-- A direction between two speakers of the square layout is rendered on these
two speakers; the wide layout has no coverage for a direction in its gap. -/
theorem locate_samples :
    (locate exactNumerics sampleSquare.compile.1.mTriplets ⟨3, 0, 4⟩).map SpeakerTriple.members
      = some [0, 1] ∧
    computeGains exactNumerics ⟨3, 0, 4⟩ samplePair = ⟨3 / 5, 4 / 5, 0⟩ ∧
    locate exactNumerics (Vbap.new layoutWide false).compile.1.mTriplets ⟨0, 0, 1⟩ = none := by
  decide!

/-! ## The claims -/

/-- C1: for every Region in the topology of a compiled panner and each member
speaker of the Region, the gains computed for the member's own direction vector
are 1 for that member and 0 for the other members (the square root being exact
at 1 and the near-zero power bound below 1). -/
theorem C1_member_direction_gains (nu : Numerics) (v : Vbap) (t : SpeakerTriple)
    (hsqrt : nu.sqrt 1 = 1) (hmin : nu.minPower < 1)
    (ht : t ∈ v.compile.1.mTriplets) :
    computeGains nu (speakerVec v.mSpeakers t.s1) t = ⟨1, 0, 0⟩ ∧
    computeGains nu (speakerVec v.mSpeakers t.s2) t = ⟨0, 1, 0⟩ ∧
    (t.s3 ≠ -1 → computeGains nu (speakerVec v.mSpeakers t.s3) t = ⟨0, 0, 1⟩) := by
  obtain ⟨hv, _, e1, e2, e3, _⟩ := Loaded.valid v.mSpeakers t (compile_loaded v t ht)
  rw [← e1, ← e2, ← e3]
  exact computeGains_valid nu t hv hsqrt hmin

/-- Witness of C1: the first pair of the compiled square layout. -/
theorem C1_member_direction_gains_witness :
    samplePair ∈ sampleSquare.compile.1.mTriplets ∧
    computeGains exactNumerics (speakerVec sampleSquare.mSpeakers samplePair.s1) samplePair
      = ⟨1, 0, 0⟩ ∧
    computeGains exactNumerics (speakerVec sampleSquare.mSpeakers samplePair.s2) samplePair
      = ⟨0, 1, 0⟩ :=
  ⟨by decide!,
   (C1_member_direction_gains exactNumerics sampleSquare samplePair
      (by decide!) (by decide!) (by decide!)).1,
   (C1_member_direction_gains exactNumerics sampleSquare samplePair
      (by decide!) (by decide!) (by decide!)).2.1⟩

/-- C3: for every query direction the Region Locator used by `renderSample` and
`renderBuffer` selects the first Region, in the order of the triplet list, whose
raw gains are all non-negative within the epsilon tolerance; when no Region
qualifies the result is "no coverage" and rendering leaves the output as it is. -/
theorem C3_locate_first_match (nu : Numerics) (v : Vbap) (q : Vec3d) :
    (∀ t, locate nu v.mTriplets q = some t ↔
      ∃ l1 l2, v.mTriplets = l1 ++ t :: l2 ∧ accepts nu q t = true ∧
        ∀ u ∈ l1, accepts nu q u = false) ∧
    (locate nu v.mTriplets q = none ↔ ∀ u ∈ v.mTriplets, accepts nu q u = false) ∧
    (∀ t, accepts nu q t = true ↔
      t.mat.isSome = true ∧ -nu.epsilon ≤ (rawGains q t).x ∧
        -nu.epsilon ≤ (rawGains q t).y ∧ -nu.epsilon ≤ (rawGains q t).z) ∧
    (∀ out sample frame, v.renderSample nu out q sample frame =
      match locate nu v.mTriplets q with
      | none => out
      | some t => accumulate out frame sample
          (regionGains v.mPhantomChannels t (computeGains nu q t))) ∧
    (locate nu v.mTriplets q = none →
      ∀ out samples numFrames sample frame,
        v.renderBuffer nu out q samples numFrames = out ∧
        v.renderSample nu out q sample frame = out) := by
  refine ⟨?_, ?_, ?_, ?_, ?_⟩
  · intro t
    unfold locate
    rw [List.find?_eq_some]
    constructor
    · rintro ⟨h1, l1, l2, h2, h3⟩
      exact ⟨l1, l2, h2, h1, fun u hu => by simpa using h3 u hu⟩
    · rintro ⟨l1, l2, h2, h1, h3⟩
      exact ⟨h1, l1, l2, h2, fun u hu => by simpa using h3 u hu⟩
  · unfold locate
    rw [List.find?_eq_none]
    constructor
    · intro h u hu; simpa using h u hu
    · intro h u hu; simpa using h u hu
  · intro t
    unfold accepts
    simp only [Bool.and_eq_true, decide_eq_true_eq, and_assoc]
  · intro out sample frame
    rfl
  · intro h out samples numFrames sample frame
    unfold Vbap.renderBuffer Vbap.renderSample
    rw [h]
    exact ⟨rfl, rfl⟩

/-- Counterexample to C4 as stated: five speakers with pairwise distinct
azimuths that encircle the listener give four Regions, because the fifth is
closer than the minimum separation to the first and is discarded. -/
theorem C4_counterexample :
    (layoutNear.map fun s => azimuthKey s.vec).Nodup ∧ encircles layoutNear = true ∧
    layoutNear.length = 5 ∧ (findSpeakerPairs layoutNear).length = 4 := by
  decide!

/-- Nothing is discarded from a list whose speakers are pairwise separated. -/
theorem discardDuplicates_foldl (l : List (ℕ × Speaker)) :
    ∀ acc : List (ℕ × Speaker),
      (acc ++ l).Pairwise (fun q p => tooClose q.2.vec p.2.vec = false) →
      l.foldl (fun acc p =>
        if acc.any (fun q => tooClose q.2.vec p.2.vec) then acc else acc ++ [p]) acc
        = acc ++ l := by
  induction l with
  | nil => intro acc _; simp
  | cons p l ih =>
    intro acc h
    have hp : acc.any (fun q => tooClose q.2.vec p.2.vec) = false := by
      rw [List.any_eq_false]
      intro q hq
      have := (List.pairwise_append.mp h).2.2 q hq p (List.mem_cons_self _ _)
      simp [this]
    rw [List.foldl_cons, hp]
    simp only [Bool.false_eq_true, if_false]
    rw [ih (acc ++ [p]) (by simpa using h)]
    simp

theorem discardDuplicates_eq (spkrs : List Speaker)
    (hsep : spkrs.Pairwise (fun a b => tooClose a.vec b.vec = false)) :
    discardDuplicates spkrs.enum = spkrs.enum := by
  unfold discardDuplicates
  rw [discardDuplicates_foldl spkrs.enum [] ?_]
  · simp
  · rw [List.nil_append]
    have h2 : (spkrs.enum.map Prod.snd).Pairwise (fun a b => tooClose a.vec b.vec = false) := by
      rw [List.enum_map_snd]; exact hsep
    exact List.pairwise_map.mp h2

/-- A list of at least two elements has as many cyclic pairs as elements. -/
theorem length_cyclicPairs {α : Type} (l : List α) (h : 2 ≤ l.length) :
    (cyclicPairs l).length = l.length := by
  match l, h with
  | a :: b :: rest, _ => simp [cyclicPairs]

/-- The `i`-th cyclic pair joins element `i` to element `i + 1`, the last one to the first. -/
theorem getElem?_cyclicPairs {α : Type} (l : List α) (h : 2 ≤ l.length) (i : ℕ)
    (hi : i < l.length) :
    ∃ a b, l[i]? = some a ∧ l[(i + 1) % l.length]? = some b ∧
      (cyclicPairs l)[i]? = some (a, b) := by
  match l, h with
  | x :: y :: rest, _ =>
    have hlen : (x :: y :: rest).length = rest.length + 2 := rfl
    rw [hlen] at hi ⊢
    refine ⟨(x :: y :: rest)[i], ?_⟩
    by_cases hlast : i + 1 < rest.length + 2
    · refine ⟨(x :: y :: rest)[i + 1], List.getElem?_eq_getElem _, ?_, ?_⟩
      · rw [Nat.mod_eq_of_lt hlast]; exact List.getElem?_eq_getElem _
      · unfold cyclicPairs
        rw [List.getElem?_zip_eq_some]
        refine ⟨List.getElem?_eq_getElem _, ?_⟩
        rw [List.getElem?_append_left (by simp; omega)]
        simp only [Prod.snd, List.getElem_cons_succ]
        exact List.getElem?_eq_getElem _
    · have hi2 : i = rest.length + 1 := by omega
      refine ⟨x, List.getElem?_eq_getElem _, ?_, ?_⟩
      · subst hi2; simp
      · unfold cyclicPairs
        rw [List.getElem?_zip_eq_some]
        refine ⟨List.getElem?_eq_getElem _, ?_⟩
        rw [List.getElem?_append_right (by simp; omega)]
        subst hi2
        simp

/-- Both components of a cyclic pair are elements of the list. -/
theorem mem_of_mem_cyclicPairs {α : Type} (l : List α) (c : α × α) (h : c ∈ cyclicPairs l) :
    c.1 ∈ l ∧ c.2 ∈ l := by
  match l with
  | [] => simp [cyclicPairs] at h
  | [_] => simp [cyclicPairs] at h
  | a :: b :: rest =>
    unfold cyclicPairs at h
    have := List.of_mem_zip (a := c.1) (b := c.2) h
    refine ⟨this.1, ?_⟩
    have h2 := this.2
    simp only [List.cons_append, List.mem_cons, List.mem_append, List.mem_singleton] at h2 ⊢
    tauto

/-- The direction vector and channel of an enumerated speaker. -/
theorem speakerVec_of_mem_enum (spkrs : List Speaker) (p : ℕ × Speaker) (h : p ∈ spkrs.enum) :
    speakerVec spkrs (p.1 : ℤ) = p.2.vec ∧ speakerChan spkrs (p.1 : ℤ) = p.2.deviceChannel := by
  have h2 := List.mem_enum_iff_getElem?.mp h
  unfold speakerVec speakerChan speakerAt
  simp [List.get?_eq_getElem?, h2]

/-- The flag of `loadVectors` for a pair, in terms of the speakers' directions. -/
theorem mkPair_flag (spkrs : List Speaker) (i j : ℕ) :
    (mkPair spkrs i j).2 = true ↔
      MIN_VOLUME_TO_LENGTH_RATIO < |det2 (speakerVec spkrs i) (speakerVec spkrs j)| := by
  unfold mkPair SpeakerTriple.loadVectors
  simp only [SpeakerTriple.ofIndices, SpeakerTriple.det, if_true, gt_iff_lt]
  split_ifs with h
  · simp [h]
  · simp [h]

/-- The member indices of the pair built by `mkPair`. -/
theorem mkPair_indices (spkrs : List Speaker) (i j : ℕ) :
    (mkPair spkrs i j).1.s1 = i ∧ (mkPair spkrs i j).1.s2 = j ∧ (mkPair spkrs i j).1.s3 = -1 :=
  loadVectors_indices _ _

/-- When every candidate passes, `filterMap` keeps them all. -/
theorem filterMap_all {α β : Type} (flag : α → Bool) (g : α → β) (l : List α)
    (h : ∀ c ∈ l, flag c = true) :
    l.filterMap (fun c => if flag c then some (g c) else none) = l.map g := by
  induction l with
  | nil => rfl
  | cons a l ih =>
    rw [List.filterMap_cons, h a (List.mem_cons_self _ _)]
    simp only [if_true, List.map_cons]
    rw [ih (fun c hc => h c (List.mem_cons_of_mem _ hc))]

/-- For a separated layout whose adjacent pairs are non-singular, the builder
turns every cyclic pair of the azimuth order into a Region. -/
theorem findSpeakerPairs_eq_map (spkrs : List Speaker)
    (hsep : spkrs.Pairwise (fun a b => tooClose a.vec b.vec = false))
    (hdet : ∀ c ∈ cyclicPairs (sortByAzimuth spkrs.enum),
      MIN_VOLUME_TO_LENGTH_RATIO < |det2 c.1.2.vec c.2.2.vec|) :
    findSpeakerPairs spkrs =
      (cyclicPairs (sortByAzimuth spkrs.enum)).map
        (fun c => (mkPair spkrs c.1.1 c.2.1).1) := by
  have hall : ∀ c ∈ cyclicPairs (sortByAzimuth spkrs.enum),
      (fun c : (ℕ × Speaker) × (ℕ × Speaker) => (mkPair spkrs c.1.1 c.2.1).2) c = true := by
    intro c hc
    have hperm : (sortByAzimuth spkrs.enum).Perm spkrs.enum := List.perm_insertionSort _ _
    obtain ⟨m1, m2⟩ := mem_of_mem_cyclicPairs _ c hc
    have e1 := (speakerVec_of_mem_enum spkrs c.1 (hperm.mem_iff.mp m1)).1
    have e2 := (speakerVec_of_mem_enum spkrs c.2 (hperm.mem_iff.mp m2)).1
    show (mkPair spkrs c.1.1 c.2.1).2 = true
    rw [mkPair_flag, e1, e2]
    exact hdet c hc
  have key := filterMap_all (fun c : (ℕ × Speaker) × (ℕ × Speaker) => (mkPair spkrs c.1.1 c.2.1).2)
    (fun c => (mkPair spkrs c.1.1 c.2.1).1) _ hall
  unfold findSpeakerPairs
  rw [discardDuplicates_eq spkrs hsep]
  exact key

/-- C4 (amended): in 2D mode, for every layout of k >= 2 speakers whose
projected directions are pairwise at least the minimum separation apart and
whose azimuth-adjacent pairs (the last speaker with the first included) have a
basis determinant above the singularity threshold, `findSpeakerPairs` produces
exactly k Regions, and Region i is the pair made of the i-th and the next
speaker in azimuth order, the last Region joining the last speaker to the first. -/
theorem C4_pairs_of_separated_layout (spkrs : List Speaker)
    (hk : 2 ≤ spkrs.length)
    (hsep : spkrs.Pairwise (fun a b => tooClose a.vec b.vec = false))
    (hdet : ∀ c ∈ cyclicPairs (sortByAzimuth spkrs.enum),
      MIN_VOLUME_TO_LENGTH_RATIO < |det2 c.1.2.vec c.2.2.vec|) :
    (findSpeakerPairs spkrs).length = spkrs.length ∧
    (sortByAzimuth spkrs.enum).Perm spkrs.enum ∧
    (sortByAzimuth spkrs.enum).Sorted (fun a b => azimuthKey a.2.vec ≤ azimuthKey b.2.vec) ∧
    ∀ i, i < spkrs.length → ∃ a b t,
      (sortByAzimuth spkrs.enum)[i]? = some a ∧
      (sortByAzimuth spkrs.enum)[(i + 1) % spkrs.length]? = some b ∧
      (findSpeakerPairs spkrs)[i]? = some t ∧
      t.s1 = (a.1 : ℤ) ∧ t.s2 = (b.1 : ℤ) ∧ t.s3 = -1 := by
  have hperm : (sortByAzimuth spkrs.enum).Perm spkrs.enum := List.perm_insertionSort _ _
  have hlen : (sortByAzimuth spkrs.enum).length = spkrs.length := by
    rw [hperm.length_eq, List.enum_length]
  have hmap := findSpeakerPairs_eq_map spkrs hsep hdet
  refine ⟨?_, hperm, ?_, ?_⟩
  · rw [hmap, List.length_map, length_cyclicPairs _ (by omega), hlen]
  · haveI : IsTotal (ℕ × Speaker) (fun a b => azimuthKey a.2.vec ≤ azimuthKey b.2.vec) :=
      ⟨fun a b => le_total _ _⟩
    haveI : IsTrans (ℕ × Speaker) (fun a b => azimuthKey a.2.vec ≤ azimuthKey b.2.vec) :=
      ⟨fun a b c h1 h2 => le_trans h1 h2⟩
    exact List.sorted_insertionSort _ _
  · intro i hi
    obtain ⟨a, b, ha, hb, hab⟩ :=
      getElem?_cyclicPairs (sortByAzimuth spkrs.enum) (by omega) i (by omega)
    rw [hlen] at hb
    refine ⟨a, b, (mkPair spkrs a.1 b.1).1, ha, hb, ?_, mkPair_indices spkrs a.1 b.1⟩
    rw [hmap, List.getElem?_map, hab]
    rfl

/-- Witness of C4 (amended): the square layout gives four Regions. -/
theorem C4_pairs_of_separated_layout_witness :
    2 ≤ layoutSquare.length ∧ (findSpeakerPairs layoutSquare).length = layoutSquare.length :=
  ⟨by decide, (C4_pairs_of_separated_layout layoutSquare (by decide) (by decide!)
    (by decide!)).1⟩

/-- One step of the 3D builder keeps the accepted list as a prefix. -/
theorem acceptStep_keeps (spkrs : List Speaker) (options : ℕ) (acc : List SpeakerTriple)
    (c : ℕ × ℕ × ℕ) : acc <+: acceptStep spkrs options acc c := by
  unfold acceptStep
  split_ifs
  · exact List.prefix_append _ _
  · exact List.prefix_refl _

/-- The 3D builder keeps the accepted list as a prefix, whatever candidates follow. -/
theorem acceptAll_keeps (spkrs : List Speaker) (options : ℕ) (cands : List (ℕ × ℕ × ℕ)) :
    ∀ acc : List SpeakerTriple, acc <+: acceptAll spkrs options acc cands := by
  induction cands with
  | nil => intro acc; exact List.prefix_refl _
  | cons c cs ih =>
    intro acc
    exact (acceptStep_keeps spkrs options acc c).trans (ih _)

/-- The 3D builder keeps the accepted Regions pairwise non-crossing. -/
theorem acceptAll_pairwise (spkrs : List Speaker) (options : ℕ) (cands : List (ℕ × ℕ × ℕ)) :
    ∀ acc : List SpeakerTriple,
      acc.Pairwise (fun earlier later => triplesCross later earlier = false) →
      (acceptAll spkrs options acc cands).Pairwise
        (fun earlier later => triplesCross later earlier = false) := by
  induction cands with
  | nil => intro acc h; exact h
  | cons c cs ih =>
    intro acc h
    apply ih
    unfold acceptStep
    split_ifs with hacc
    · rw [List.pairwise_append]
      refine ⟨h, List.pairwise_singleton _ _, ?_⟩
      intro u hu w hw
      rw [List.mem_singleton] at hw
      subst hw
      unfold acceptable at hacc
      simp only [Bool.and_eq_true, Bool.not_eq_true', List.any_eq_false] at hacc
      simpa using hacc.2 u hu
    · exact h

/-- C5: in 3D mode every triple accepted into the topology by `findSpeakerTriplets`
has a basis whose determinant magnitude is above the minimum threshold and does
not cross any triple accepted before it; the triples accepted after any part of
the candidates stay, in order, at the front of the final list. -/
theorem C5_accepted_triples (spkrs : List Speaker) (options : ℕ) :
    (∀ t ∈ findSpeakerTriplets spkrs options,
      MIN_VOLUME_TO_LENGTH_RATIO <
        |det3 (speakerVec spkrs t.s1) (speakerVec spkrs t.s2) (speakerVec spkrs t.s3)|) ∧
    (findSpeakerTriplets spkrs options).Pairwise
      (fun earlier later => triplesCross later earlier = false) ∧
    (∀ c1 c2, tripleCandidates spkrs.length = c1 ++ c2 →
      acceptAll spkrs options [] c1 <+: findSpeakerTriplets spkrs options) ∧
    (∀ acc c, acc <+: acceptStep spkrs options acc c) := by
  refine ⟨?_, ?_, ?_, ?_⟩
  · intro t ht
    obtain ⟨hl, h3⟩ := findSpeakerTriplets_loaded spkrs options t ht
    obtain ⟨_, hd, e1, e2, e3, _⟩ := Loaded.valid spkrs t hl
    rw [← e1, ← e2, ← e3]
    simpa [SpeakerTriple.det, h3] using hd
  · exact acceptAll_pairwise spkrs options _ [] List.Pairwise.nil
  · intro c1 c2 h
    unfold findSpeakerTriplets
    rw [h]
    unfold acceptAll
    rw [List.foldl_append]
    exact acceptAll_keeps spkrs options c2 _
  · exact acceptStep_keeps spkrs options

/-- C6: calling `compile` twice in succession, with the same speaker layout, mode
and options, leaves the triplet list with the same Regions in the same order as
after the first call; the second call adds nothing. -/
theorem C6_compile_idempotent (v : Vbap) :
    v.compile.1.compile = v.compile ∧
    v.compile.1.compile.1.mTriplets = v.compile.1.mTriplets ∧
    v.compile.1.compile.1.mTriplets.length = v.compile.1.mTriplets.length ∧
    v.compile.1.mSpeakers = v.mSpeakers ∧ v.compile.1.mIs3D = v.mIs3D ∧
    v.compile.1.mOptions = v.mOptions := by
  have h : v.compile.1.compile = v.compile := rfl
  exact ⟨h, by rw [h], by rw [h], rfl, rfl, rfl⟩

/-- Counterexample to C7 as stated: in the compiled wide layout (2D) the third
speaker belongs to two Regions, but the first Region of the list, which does not
contain it, accepts its direction; a unit impulse rendered at that direction
adds nothing to the third speaker's channel and adds 3/5 and 4/5 to the channels
of the other two speakers. -/
theorem C7_counterexample :
    (∃ t ∈ (Vbap.new layoutWide false).compile.1.mTriplets, (2 : ℤ) ∈ t.members) ∧
    (Vbap.new layoutWide false).compile.1.mPhantomChannels = [] ∧
    (Vbap.new layoutWide false).compile.1.renderBuffer exactNumerics silence
      (speakerVec layoutWide 2) [1] 1 (speakerChan layoutWide 2) 0 = 0 ∧
    (Vbap.new layoutWide false).compile.1.renderBuffer exactNumerics silence
      (speakerVec layoutWide 2) [1] 1 (speakerChan layoutWide 0) 0 = 3 / 5 ∧
    (Vbap.new layoutWide false).compile.1.renderBuffer exactNumerics silence
      (speakerVec layoutWide 2) [1] 1 (speakerChan layoutWide 1) 0 = 4 / 5 := by
  decide!

theorem gainAt_cons (p : ℕ × ℚ) (cg : List (ℕ × ℚ)) (c : ℕ) :
    gainAt (p :: cg) c = (if p.1 = c then p.2 else 0) + gainAt cg c := by
  unfold gainAt
  by_cases h : p.1 = c
  · simp [List.filter_cons, h]
  · simp [List.filter_cons, h]

theorem gainAt_append (l1 l2 : List (ℕ × ℚ)) (c : ℕ) :
    gainAt (l1 ++ l2) c = gainAt l1 c + gainAt l2 c := by
  unfold gainAt
  simp [List.filter_append]

/-- Contributions with zero gain route nothing to any channel. -/
theorem gainAt_zero (cg : List (ℕ × ℚ)) (h : ∀ p ∈ cg, p.2 = 0) (c : ℕ) : gainAt cg c = 0 := by
  induction cg with
  | nil => rfl
  | cons p cg ih =>
    rw [gainAt_cons, ih (fun q hq => h q (List.mem_cons_of_mem _ hq)),
      h p (List.mem_cons_self _ _)]
    simp

theorem channelGains_zero (phantom : List (ℕ × List ℕ)) (chan c : ℕ) :
    gainAt (channelGains phantom chan 0) c = 0 := by
  apply gainAt_zero
  intro p hp
  unfold channelGains at hp
  cases hl : phantom.lookup chan with
  | none => rw [hl] at hp; simp at hp; rw [hp]
  | some outs =>
    rw [hl] at hp
    simp only [List.mem_map] at hp
    obtain ⟨_, _, rfl⟩ := hp
    simp

/-- The value of a buffer after accumulating a list of contributions at a frame. -/
theorem accumulate_apply (frame : ℕ) (sample : ℚ) (cg : List (ℕ × ℚ)) :
    ∀ (out : AudioOut) (c f : ℕ), accumulate out frame sample cg c f =
      out c f + if f = frame then gainAt cg c * sample else 0 := by
  induction cg with
  | nil => intro out c f; simp [accumulate, gainAt]
  | cons p cg ih =>
    intro out c f
    have hstep : accumulate out frame sample (p :: cg) =
        accumulate (fun c f => if c = p.1 ∧ f = frame then out c f + p.2 * sample else out c f)
          frame sample cg := rfl
    rw [hstep, ih, gainAt_cons]
    by_cases hf : f = frame
    · by_cases hc : c = p.1
      · have hc2 : p.1 = c := hc.symm
        simp only [hf, hc, and_self, if_true]
        ring
      · have hc2 : ¬ p.1 = c := fun h => hc h.symm
        simp only [hf, hc, hc2, false_and, if_false, if_true]
        ring
    · simp [hf]

/-- The value of a buffer after a block of frames has been accumulated. -/
theorem foldl_accumulate_apply (samples : List ℚ) (cg : List (ℕ × ℚ)) (out : AudioOut) :
    ∀ (n c f : ℕ), (List.range n).foldl
        (fun o f => accumulate o f (samples.getD f 0) cg) out c f =
      out c f + if f < n then gainAt cg c * samples.getD f 0 else 0 := by
  intro n
  induction n with
  | zero => intro c f; simp
  | succ n ih =>
    intro c f
    rw [List.range_succ, List.foldl_append, List.foldl_cons, List.foldl_nil, accumulate_apply, ih]
    by_cases h1 : f = n
    · subst h1; simp
    · by_cases h2 : f < n
      · have h3 : f < n + 1 := by omega
        simp [h1, h2, h3]
      · have h3 : ¬ f < n + 1 := by omega
        simp [h1, h2, h3]

/-- No gain reaches a channel that no contribution names. -/
theorem gainAt_zero_of_not_mem (cg : List (ℕ × ℚ)) (c : ℕ) (h : ∀ p ∈ cg, p.1 ≠ c) :
    gainAt cg c = 0 := by
  induction cg with
  | nil => rfl
  | cons p cg ih =>
    rw [gainAt_cons, ih (fun q hq => h q (List.mem_cons_of_mem _ hq)),
      if_neg (h p (List.mem_cons_self _ _))]
    simp

/-- The total gain routed to each channel by a Region whose gains are a unit
coordinate vector: only the contributions of the member with gain 1 count. -/
theorem regionGains_unit (phantom : List (ℕ × List ℕ)) (t : SpeakerTriple) (c : ℕ) :
    gainAt (regionGains phantom t ⟨1, 0, 0⟩) c = gainAt (channelGains phantom t.s1Chan 1) c ∧
    gainAt (regionGains phantom t ⟨0, 1, 0⟩) c = gainAt (channelGains phantom t.s2Chan 1) c ∧
    (t.s3 ≠ -1 →
      gainAt (regionGains phantom t ⟨0, 0, 1⟩) c = gainAt (channelGains phantom t.s3Chan 1) c) := by
  refine ⟨?_, ?_, ?_⟩
  · unfold regionGains
    rw [gainAt_append, gainAt_append, channelGains_zero]
    split_ifs
    · simp [gainAt]
    · rw [channelGains_zero]; simp
  · unfold regionGains
    rw [gainAt_append, gainAt_append, channelGains_zero]
    split_ifs
    · simp [gainAt]
    · rw [channelGains_zero]; simp
  · intro h3
    unfold regionGains
    rw [gainAt_append, gainAt_append, channelGains_zero, channelGains_zero, if_neg h3]
    simp

/-- C7 (amended): for every speaker i that is a member of the Region which the
locator selects for speaker i's own direction (a Region loaded from the layout),
`renderBuffer` at that direction adds to every channel the input block scaled
by the share of gain 1 that speaker i's channel routes there: when the channel
is not phantom, the input scaled by 1.0 on speaker i's channel and nothing on
any other channel; when it is phantom with assigned outputs, contributions on
assigned outputs only, whose gains sum to 1. -/
theorem C7_render_member_direction (nu : Numerics) (v : Vbap) (out : AudioOut) (i : ℤ)
    (samples : List ℚ) (numFrames : ℕ) (t : SpeakerTriple)
    (hsqrt : nu.sqrt 1 = 1) (hmin : nu.minPower < 1)
    (hloc : locate nu v.mTriplets (speakerVec v.mSpeakers i) = some t)
    (hL : t.Loaded v.mSpeakers) (hi : i ∈ t.members) :
    (∀ c f, v.renderBuffer nu out (speakerVec v.mSpeakers i) samples numFrames c f =
      out c f + if f < numFrames then
        gainAt (channelGains v.mPhantomChannels (speakerChan v.mSpeakers i) 1) c *
          samples.getD f 0 else 0) ∧
    (v.mPhantomChannels.lookup (speakerChan v.mSpeakers i) = none →
      ∀ c, gainAt (channelGains v.mPhantomChannels (speakerChan v.mSpeakers i) 1) c =
        if c = speakerChan v.mSpeakers i then 1 else 0) ∧
    (∀ outs, v.mPhantomChannels.lookup (speakerChan v.mSpeakers i) = some outs → outs ≠ [] →
      (∀ c, gainAt (channelGains v.mPhantomChannels (speakerChan v.mSpeakers i) 1) c ≠ 0 →
        c ∈ outs) ∧
      ((channelGains v.mPhantomChannels (speakerChan v.mSpeakers i) 1).map Prod.snd).sum = 1) := by
  obtain ⟨hv, _, e1, e2, e3, c1, c2, c3⟩ := Loaded.valid v.mSpeakers t hL
  obtain ⟨g1, g2, g3⟩ := computeGains_valid nu t hv hsqrt hmin
  refine ⟨?_, ?_, ?_⟩
  · intro c f
    unfold Vbap.renderBuffer
    rw [hloc]
    simp only
    rw [foldl_accumulate_apply]
    have hmem : i = t.s1 ∨ i = t.s2 ∨ (i = t.s3 ∧ t.s3 ≠ -1) := by
      unfold SpeakerTriple.members at hi
      split_ifs at hi with h3
      · simp only [List.mem_cons, List.mem_singleton, List.not_mem_nil, or_false] at hi
        tauto
      · simp only [List.mem_cons, List.mem_singleton, List.not_mem_nil, or_false] at hi
        tauto
    rcases hmem with h | h | ⟨h, h3⟩
    · rw [h, ← e1, g1, (regionGains_unit _ t c).1, c1]
    · rw [h, ← e2, g2, (regionGains_unit _ t c).2.1, c2]
    · rw [h, ← e3, g3 h3, (regionGains_unit _ t c).2.2 h3, c3]
  · intro hnone c
    unfold channelGains
    rw [hnone]
    rw [gainAt_cons]
    by_cases hc : c = speakerChan v.mSpeakers i
    · simp [hc, gainAt]
    · have hc2 : ¬ speakerChan v.mSpeakers i = c := fun h => hc h.symm
      simp [hc, hc2, gainAt]
  · intro outs hsome hne
    unfold channelGains
    rw [hsome]
    simp only
    constructor
    · intro c hc
      by_contra hnot
      apply hc
      apply gainAt_zero_of_not_mem
      intro p hp
      simp only [List.mem_map] at hp
      obtain ⟨d, hd, rfl⟩ := hp
      intro heq
      exact hnot (heq ▸ hd)
    · have hlen : (outs.length : ℚ) ≠ 0 := by
        have : outs.length ≠ 0 := fun h => hne (List.length_eq_zero.mp h)
        exact_mod_cast this
      rw [List.map_map]
      have : (Prod.snd ∘ fun c : ℕ => (c, (1 : ℚ) / (outs.length : ℚ))) =
          fun _ => (1 : ℚ) / (outs.length : ℚ) := rfl
      rw [this, List.map_const', List.sum_replicate, nsmul_eq_mul]
      field_simp

/-- Witness of C7 (amended): the compiled square layout, the first speaker's
channel being phantom with outputs 1 and 3: a unit impulse at the first
speaker's direction adds 1/2 to channel 1. -/
theorem C7_render_member_direction_witness :
    locate exactNumerics samplePhantom.mTriplets (speakerVec samplePhantom.mSpeakers 0)
      = some samplePair ∧
    (0 : ℤ) ∈ samplePair.members ∧
    samplePhantom.renderBuffer exactNumerics silence (speakerVec samplePhantom.mSpeakers 0)
      [1] 1 1 0 = 1 / 2 ∧
    samplePhantom.renderBuffer exactNumerics silence (speakerVec samplePhantom.mSpeakers 0)
      [1] 1 1 0 = silence 1 0 + if 0 < 1 then
        gainAt (channelGains samplePhantom.mPhantomChannels
          (speakerChan samplePhantom.mSpeakers 0) 1) 1 * [(1 : ℚ)].getD 0 0 else 0 :=
  ⟨by decide!, by decide!, by decide!,
   (C7_render_member_direction exactNumerics samplePhantom silence 0 [1] 1 samplePair
      (by decide!) (by decide!) (by decide!)
      (by show samplePair.loadVectors samplePhantom.mSpeakers = (samplePair, true); decide!)
      (by decide!)).1 1 0⟩

/-- C8: `makePhantomChannel` changes only the phantom-channel map: the triplet
list, the 2D/3D mode flag, the options and the speaker layout are the same after
the call as before it; a non-empty list of outputs is recorded in the map. -/
theorem C8_makePhantomChannel_frame (v : Vbap) (channelIndex : ℤ)
    (assignedOutputs : List ℕ) :
    (v.makePhantomChannel channelIndex assignedOutputs).1.mTriplets = v.mTriplets ∧
    (v.makePhantomChannel channelIndex assignedOutputs).1.mIs3D = v.mIs3D ∧
    (v.makePhantomChannel channelIndex assignedOutputs).1.mOptions = v.mOptions ∧
    (v.makePhantomChannel channelIndex assignedOutputs).1.mSpeakers = v.mSpeakers ∧
    (assignedOutputs ≠ [] →
      (v.makePhantomChannel channelIndex assignedOutputs).2 = none ∧
      (v.makePhantomChannel channelIndex assignedOutputs).1.mPhantomChannels.lookup
        (phantomKey channelIndex) = some assignedOutputs) := by
  unfold Vbap.makePhantomChannel
  split_ifs with h
  · refine ⟨rfl, rfl, rfl, rfl, ?_⟩
    intro hne
    exact absurd (List.isEmpty_iff.mp h) hne
  · refine ⟨rfl, rfl, rfl, rfl, ?_⟩
    intro _
    simp [List.lookup]

/-- Whether an index is rejected as out of range. -/
theorem validIndex_eq_false (spkrs : List Speaker) (s : ℤ) :
    validIndex spkrs s = false ↔ (s < 0 ∨ (spkrs.length : ℤ) ≤ s) := by
  unfold validIndex
  rw [Bool.and_eq_false_iff]
  simp only [decide_eq_false_iff_not, not_le, not_lt]

/-- A call of `makeTriple` with an index outside the speaker list is rejected. -/
theorem makeTriple_of_invalid (v : Vbap) (s1 s2 s3 : ℤ)
    (h : (s1 < 0 ∨ (v.mSpeakers.length : ℤ) ≤ s1) ∨ (s2 < 0 ∨ (v.mSpeakers.length : ℤ) ≤ s2) ∨
      (s3 < 0 ∨ (v.mSpeakers.length : ℤ) ≤ s3)) :
    v.makeTriple s1 s2 s3 = (v, some VbapError.InvalidManualTriple) := by
  unfold Vbap.makeTriple
  have hfalse : (validIndex v.mSpeakers s1 && validIndex v.mSpeakers s2 &&
      validIndex v.mSpeakers s3) = false := by
    rcases h with h | h | h
    · rw [(validIndex_eq_false _ _).mpr h]; simp
    · rw [(validIndex_eq_false _ _).mpr h]; simp
    · rw [(validIndex_eq_false _ _).mpr h]; simp
  rw [hfalse]
  rfl

/-- C9: `makeTriple` called with a speaker index outside the range of the speaker
list, and `makePhantomChannel` called with an empty list of assigned outputs,
each report the error as the result of that very call and leave the panner as
it was. -/
theorem C9_invalid_calls_reported (v : Vbap) (s1 s2 s3 channelIndex : ℤ)
    (h : (s1 < 0 ∨ (v.mSpeakers.length : ℤ) ≤ s1) ∨ (s2 < 0 ∨ (v.mSpeakers.length : ℤ) ≤ s2) ∨
      (s3 < 0 ∨ (v.mSpeakers.length : ℤ) ≤ s3)) :
    v.makeTriple s1 s2 s3 = (v, some VbapError.InvalidManualTriple) ∧
    v.makePhantomChannel channelIndex [] = (v, some VbapError.InvalidPhantomMapping) :=
  ⟨makeTriple_of_invalid v s1 s2 s3 h, rfl⟩

/-- Witness of C9: index 7 is outside the four speakers of the square layout. -/
theorem C9_invalid_calls_reported_witness :
    sampleSquare.makeTriple 0 1 7 = (sampleSquare, some VbapError.InvalidManualTriple) ∧
    sampleSquare.makePhantomChannel 2 [] = (sampleSquare, some VbapError.InvalidPhantomMapping) :=
  C9_invalid_calls_reported sampleSquare 0 1 7 2 (by decide)

/-- There is no direction vector at an index outside the speaker list. -/
theorem speakerVec_of_invalid (spkrs : List Speaker) (s : ℤ) (h : validIndex spkrs s = false) :
    speakerVec spkrs s = Vec3d.fill 0 := by
  rw [validIndex_eq_false] at h
  unfold speakerVec speakerAt
  split_ifs with h0
  · have hlen : spkrs.length ≤ s.toNat := by omega
    rw [List.get?_eq_none.mpr hlen]
  · rfl

theorem det2_self (a : Vec3d) : det2 a a = 0 := by unfold det2; ring

theorem det2_zero_left (b : Vec3d) : det2 (Vec3d.fill 0) b = 0 := by
  simp [det2, Vec3d.fill]

theorem det2_zero_right (a : Vec3d) : det2 a (Vec3d.fill 0) = 0 := by
  simp [det2, Vec3d.fill]

theorem det3_degenerate (a b : Vec3d) :
    det3 a a b = 0 ∧ det3 a b a = 0 ∧ det3 a b b = 0 ∧ det3 (Vec3d.fill 0) a b = 0 ∧
    det3 a (Vec3d.fill 0) b = 0 ∧ det3 a b (Vec3d.fill 0) = 0 := by
  simp only [det3, Vec3d.dot, Vec3d.cross, Vec3d.fill]
  refine ⟨?_, ?_, ?_, ?_, ?_, ?_⟩ <;> ring

/-- The member indices of a loaded Region are pairwise distinct indices of the speaker list. -/
theorem Loaded.members (spkrs : List Speaker) (t : SpeakerTriple) (h : t.Loaded spkrs) :
    t.members.Nodup ∧ ∀ s ∈ t.members, validIndex spkrs s = true := by
  obtain ⟨⟨_, hd⟩, _, e1, e2, e3, _⟩ := Loaded.valid spkrs t h
  have hvalid : ∀ s, speakerVec spkrs s ≠ Vec3d.fill 0 → validIndex spkrs s = true := by
    intro s hs
    by_contra hc
    rw [Bool.not_eq_true] at hc
    exact hs (speakerVec_of_invalid spkrs s hc)
  unfold SpeakerTriple.members
  unfold SpeakerTriple.det at hd
  by_cases h3 : t.s3 = -1
  · rw [if_pos h3] at hd ⊢
    have n1 : speakerVec spkrs t.s1 ≠ Vec3d.fill 0 := by
      intro h0; rw [e1, h0, det2_zero_left] at hd; exact hd rfl
    have n2 : speakerVec spkrs t.s2 ≠ Vec3d.fill 0 := by
      intro h0; rw [e2, h0, det2_zero_right] at hd; exact hd rfl
    have d12 : t.s1 ≠ t.s2 := by
      intro h0; rw [e1, e2, h0, det2_self] at hd; exact hd rfl
    refine ⟨by simp [d12], ?_⟩
    intro s hs
    simp only [List.mem_cons, List.mem_singleton, List.not_mem_nil, or_false] at hs
    rcases hs with rfl | rfl
    · exact hvalid _ n1
    · exact hvalid _ n2
  · rw [if_neg h3] at hd ⊢
    have n1 : speakerVec spkrs t.s1 ≠ Vec3d.fill 0 := by
      intro h0; rw [e1, h0, (det3_degenerate _ _).2.2.2.1] at hd; exact hd rfl
    have n2 : speakerVec spkrs t.s2 ≠ Vec3d.fill 0 := by
      intro h0; rw [e2, h0, (det3_degenerate _ _).2.2.2.2.1] at hd; exact hd rfl
    have n3 : speakerVec spkrs t.s3 ≠ Vec3d.fill 0 := by
      intro h0; rw [e3, h0, (det3_degenerate _ _).2.2.2.2.2] at hd; exact hd rfl
    have d12 : t.s1 ≠ t.s2 := by
      intro h0; rw [e1, e2, h0, (det3_degenerate _ _).1] at hd; exact hd rfl
    have d13 : t.s1 ≠ t.s3 := by
      intro h0; rw [e1, e3, h0, (det3_degenerate _ _).2.1] at hd; exact hd rfl
    have d23 : t.s2 ≠ t.s3 := by
      intro h0; rw [e2, e3, h0, (det3_degenerate _ _).2.2.1] at hd; exact hd rfl
    refine ⟨by simp [d12, d13, d23], ?_⟩
    intro s hs
    simp only [List.mem_cons, List.mem_singleton, List.not_mem_nil, or_false] at hs
    rcases hs with rfl | rfl | rfl
    · exact hvalid _ n1
    · exact hvalid _ n2
    · exact hvalid _ n3

/-- C11: `set3D(b)` only records the mode flag: after the call `mIs3D` equals `b`
and the triplet list, the phantom-channel map, the options and the speaker
layout are unchanged, so the Regions are still those built before the call. -/
theorem C11_set3D_frame (v : Vbap) ( is3D : Bool) :
    (v.set3D is3D).mIs3D = is3D ∧
    (v.set3D is3D).mTriplets = v.mTriplets ∧
    (v.set3D is3D).mPhantomChannels = v.mPhantomChannels ∧
    (v.set3D is3D).mOptions = v.mOptions ∧
    (v.set3D is3D).mSpeakers = v.mSpeakers :=
  ⟨rfl, rfl, rfl, rfl, rfl⟩

/-- After `set3D(true)` the compiled square layout still holds its four 2D pairs;
only a following `compile` replaces them (by no Region at all: the square has no
non-singular triple). -/
theorem set3D_keeps_regions_sample :
    (sampleSquare.compile.1.set3D true).mTriplets.map SpeakerTriple.members
      = [[0, 1], [1, 2], [2, 3], [3, 0]] ∧
    (sampleSquare.compile.1.set3D true).compile.1.mTriplets = [] := by
  decide!

/-! ## Lemmas on `Vec<N, T>` -/

/-- A loop that adds `g i` for `i = s, ..., s + m - 1` to `x`. -/
theorem foldl_add_range' {T : Type} [AddCommMonoid T] (g : ℕ → T) :
    ∀ (m s : ℕ) (x : T), (List.range' s m).foldl (fun r i => r + g i) x
      = x + ∑ k in Finset.range m, g (s + k) := by
  intro m
  induction m with
  | zero => intro s x; simp
  | succ m ih =>
    intro s x
    rw [List.range'_succ, List.foldl_cons, ih, Finset.sum_range_succ', add_assoc]
    congr 1
    rw [add_comm (∑ k in Finset.range m, g (s + (k + 1))) (g (s + 0))]
    congr 1
    apply Finset.sum_congr rfl
    intro k _
    congr 1
    omega

/-- A loop over the elements from a first term `g 0`: the sum of `g` over all indices. -/
theorem foldl_add_elems {T : Type} [AddCommMonoid T] (g : ℕ → T) (N : ℕ) (h0 : N = 0 → g 0 = 0) :
    (List.range' 1 (N - 1)).foldl (fun r i => r + g i) (g 0) = ∑ i : Fin N, g i := by
  rw [foldl_add_range', Fin.sum_univ_eq_sum_range]
  cases N with
  | zero => simp [h0 rfl]
  | succ n =>
    rw [Finset.sum_range_succ', add_comm]
    simp [add_comm]

namespace Vec

theorem elem_coe {N : ℕ} {T : Type} [Zero T] (a : Vec N T) (i : Fin N) : elem a i = a i := by
  unfold elem
  rw [dif_pos i.2]

theorem elem_zero_of_empty {N : ℕ} {T : Type} [Zero T] (a : Vec N T) (h : N = 0) :
    elem a 0 = 0 := by
  unfold elem
  rw [dif_neg (by omega)]

/-- The dot product is the sum of the products of the elements. -/
theorem dot_eq_sum {N : ℕ} {T : Type} [CommRing T] (a v : Vec N T) :
    dot a v = ∑ i : Fin N, a i * v i := by
  unfold dot
  rw [foldl_add_elems (fun i => elem a i * elem v i) N
    (fun h => by simp [elem_zero_of_empty a h])]
  apply Finset.sum_congr rfl
  intro i _
  rw [elem_coe, elem_coe]

/-- The method `sum` is the sum of the elements. -/
theorem sum_eq_sum {N : ℕ} {T : Type} [AddCommMonoid T] (a : Vec N T) :
    sum a = ∑ i : Fin N, a i := by
  unfold sum
  rw [foldl_add_elems (fun i => elem a i) N (fun h => elem_zero_of_empty a h)]
  apply Finset.sum_congr rfl
  intro i _
  rw [elem_coe]

end Vec

namespace Vec

/-- The squared distance from `p` to the point `a + (b - a) s` of the line through `a` and `b`. -/
theorem magSqr_sub_affine {N : ℕ} {T : Type} [CommRing T] (a b p : Vec N T) (s : T) :
    magSqr (sub p (add a (scale (sub b a) s))) =
      magSqr (sub p a) - 2 * s * dot (sub p a) (sub b a) + s * s * magSqr (sub b a) := by
  simp only [magSqr, dot_eq_sum, sub, add, scale]
  rw [Finset.mul_sum, Finset.mul_sum, ← Finset.sum_sub_distrib, ← Finset.sum_add_distrib]
  apply Finset.sum_congr rfl
  intro i _
  ring

theorem magSqr_nonneg {N : ℕ} {T : Type} [LinearOrderedField T] (a : Vec N T) :
    0 ≤ magSqr a := by
  simp only [magSqr, dot_eq_sum]
  exact Finset.sum_nonneg (fun i _ => mul_self_nonneg (a i))

/-- The Cauchy-Schwarz inequality for `dot`. -/
theorem dot_sq_le {N : ℕ} {T : Type} [LinearOrderedField T] (a v : Vec N T) :
    dot a v * dot a v ≤ magSqr a * magSqr v := by
  simp only [magSqr, dot_eq_sum]
  have h := Finset.sum_mul_sq_le_sq_mul_sq Finset.univ a v
  simpa [sq] using h

theorem add_scale_zero {N : ℕ} {T : Type} [CommRing T] (a u : Vec N T) :
    add a (scale u 0) = a := by
  funext i
  simp [add, scale]

theorem add_scale_one {N : ℕ} {T : Type} [CommRing T] (a b : Vec N T) :
    add a (scale (sub b a) 1) = b := by
  funext i
  simp [add, scale, sub]

end Vec

/-- The point returned by `closestPointOnLineSegment`, by cases on the fraction. -/
theorem closestPoint_cases {N : ℕ} {T : Type} [LinearOrderedField T] (a b p : Vec N T) :
    (closestPointOnLineSegment a b p).2 =
      if (closestPointOnLineSegment a b p).1 ≤ 0 then a
      else if (closestPointOnLineSegment a b p).1 ≥ 1 then b
      else Vec.add a (Vec.scale (Vec.sub b a) (closestPointOnLineSegment a b p).1) := by
  unfold closestPointOnLineSegment
  simp only
  generalize (if Vec.magSqr (Vec.sub b a) > 0 then
    Vec.dot (Vec.sub p a) (Vec.sub b a) / Vec.magSqr (Vec.sub b a) else 0) = f
  split_ifs <;> rfl

/-- The point returned by `closestPointOnLineSegment` is `a + (b - a) t` for the
fraction `t` clamped to `[0, 1]`. -/
theorem closestPoint_eq {N : ℕ} {T : Type} [LinearOrderedField T] (a b p : Vec N T) :
    (closestPointOnLineSegment a b p).2 =
      Vec.add a (Vec.scale (Vec.sub b a)
        (max 0 (min 1 (closestPointOnLineSegment a b p).1))) := by
  rw [closestPoint_cases]
  generalize (closestPointOnLineSegment a b p).1 = f
  split_ifs with h1 h2
  · rw [min_eq_right (le_trans h1 zero_le_one), max_eq_left h1, Vec.add_scale_zero]
  · rw [min_eq_left h2, max_eq_right zero_le_one, Vec.add_scale_one]
  · push_neg at h1 h2
    rw [min_eq_right h2.le, max_eq_right h1.le]

/-- The fraction computed by `closestPointOnLineSegment`. -/
theorem closestPoint_frac {N : ℕ} {T : Type} [LinearOrderedField T] (a b p : Vec N T) :
    (closestPointOnLineSegment a b p).1 =
      if Vec.magSqr (Vec.sub b a) > 0 then
        Vec.dot (Vec.sub p a) (Vec.sub b a) / Vec.magSqr (Vec.sub b a)
      else 0 := by
  unfold closestPointOnLineSegment
  simp only
  generalize (if Vec.magSqr (Vec.sub b a) > 0 then
    Vec.dot (Vec.sub p a) (Vec.sub b a) / Vec.magSqr (Vec.sub b a) else 0) = f
  split_ifs <;> rfl

/-- Among the points `a + (b - a) s` with `s` in `[0, 1]`, the clamped fraction
gives the least squared distance to `p`. -/
theorem clamped_fraction_minimal {T : Type} [LinearOrderedField T] (W D M s : T)
    (hM : 0 ≤ M) (hD : D * D ≤ W * M) (hs0 : 0 ≤ s) (hs1 : s ≤ 1) :
    W - 2 * (max 0 (min 1 (if M > 0 then D / M else 0))) * D +
        (max 0 (min 1 (if M > 0 then D / M else 0))) *
          (max 0 (min 1 (if M > 0 then D / M else 0))) * M
      ≤ W - 2 * s * D + s * s * M := by
  by_cases hpos : M > 0
  · rw [if_pos hpos]
    by_cases h0 : D / M ≤ 0
    · have hD0 : D ≤ 0 := by
        have := mul_le_mul_of_nonneg_right h0 hpos.le
        rwa [div_mul_cancel₀ D hpos.ne', zero_mul] at this
      rw [min_eq_right (le_trans h0 zero_le_one), max_eq_left h0]
      nlinarith [mul_nonneg hs0 hM, mul_nonneg hs0 (neg_nonneg.mpr hD0),
        mul_nonneg (mul_nonneg hs0 hs0) hM]
    · push_neg at h0
      by_cases h1 : 1 ≤ D / M
      · have hDM : M ≤ D := by
          have := mul_le_mul_of_nonneg_right h1 hpos.le
          rwa [div_mul_cancel₀ D hpos.ne', one_mul] at this
        rw [min_eq_left h1, max_eq_right zero_le_one]
        have e1 : 0 ≤ 1 - s := by linarith
        nlinarith [mul_nonneg e1 (sub_nonneg.mpr hDM), mul_nonneg (mul_nonneg e1 e1) hM,
          mul_nonneg e1 hM]
      · push_neg at h1
        rw [min_eq_right h1.le, max_eq_right h0.le]
        have key : W - 2 * s * D + s * s * M - (W - 2 * (D / M) * D + D / M * (D / M) * M)
            = (s - D / M) * (s - D / M) * M := by
          field_simp
          ring
        have := mul_nonneg (mul_self_nonneg (s - D / M)) hM
        linarith
  · rw [if_neg hpos]
    have hM0 : M = 0 := le_antisymm (not_lt.mp hpos) hM
    have hD0 : D = 0 := by
      rw [hM0, mul_zero] at hD
      have := mul_self_nonneg D
      exact mul_self_eq_zero.mp (le_antisymm hD this)
    rw [hM0, hD0]
    simp

/-- C13: for all points a, b, p with components in an ordered field, the point r
returned by `closestPointOnLineSegment(frac, a, b, p)` lies on the segment ab
(r = a + t(b-a) for some t in [0,1]) and is at least as close to p as every
point of the segment; for the degenerate segment a = b, r = a. -/
theorem C13_closestPointOnLineSegment {N : ℕ} {T : Type} [LinearOrderedField T]
    (a b p : Vec N T) :
    (∃ t, 0 ≤ t ∧ t ≤ 1 ∧
      (closestPointOnLineSegment a b p).2 = Vec.add a (Vec.scale (Vec.sub b a) t)) ∧
    (∀ s, 0 ≤ s → s ≤ 1 →
      Vec.magSqr (Vec.sub p (closestPointOnLineSegment a b p).2) ≤
        Vec.magSqr (Vec.sub p (Vec.add a (Vec.scale (Vec.sub b a) s)))) ∧
    (a = b → (closestPointOnLineSegment a b p).2 = a) := by
  refine ⟨?_, ?_, ?_⟩
  · exact ⟨max 0 (min 1 (closestPointOnLineSegment a b p).1), le_max_left _ _,
      max_le zero_le_one (min_le_left _ _), closestPoint_eq a b p⟩
  · intro s hs0 hs1
    rw [closestPoint_eq, Vec.magSqr_sub_affine, Vec.magSqr_sub_affine, closestPoint_frac]
    exact clamped_fraction_minimal _ _ _ s (Vec.magSqr_nonneg _)
      (Vec.dot_sq_le (Vec.sub p a) (Vec.sub b a)) hs0 hs1
  · intro hab
    subst hab
    rw [closestPoint_eq]
    funext i
    simp [Vec.add, Vec.scale, Vec.sub]

/-- The function `closestPointOnLineSegment` on samples: a projection inside the
segment, one beyond its end, and a degenerate segment. -/
theorem closestPointOnLineSegment_samples :
    closestPointOnLineSegment (![0, 0] : Vec 2 ℚ) ![2, 0] ![1, 5] = (1 / 2, ![1, 0]) ∧
    closestPointOnLineSegment (![0, 0] : Vec 2 ℚ) ![2, 0] ![7, 5] = (7 / 2, ![2, 0]) ∧
    closestPointOnLineSegment (![3, 4] : Vec 2 ℚ) ![3, 4] ![7, 5] = (0, ![3, 4]) := by
  decide!

/-- The result of `linePlaneIntersection`, by cases on the two dot products. -/
theorem linePlaneIntersection_cases {N : ℕ} {T : Type} [CommRing T] [Div T] [DecidableEq T]
    (d : T) (l l0 n p0 : Vec N T) :
    (Vec.dot l n ≠ 0 →
      linePlaneIntersection d l l0 n p0 = (1, Vec.dot (Vec.sub p0 l0) n / Vec.dot l n)) ∧
    (Vec.dot l n = 0 → Vec.dot (Vec.sub p0 l0) n = 0 →
      linePlaneIntersection d l l0 n p0 = (2, d)) ∧
    (Vec.dot l n = 0 → Vec.dot (Vec.sub p0 l0) n ≠ 0 →
      linePlaneIntersection d l l0 n p0 = (0, d)) := by
  refine ⟨?_, ?_, ?_⟩
  · intro hb
    unfold linePlaneIntersection
    simp only [if_neg hb]
  · intro hb ha
    unfold linePlaneIntersection
    simp only [if_pos hb, if_pos ha]
  · intro hb ha
    unfold linePlaneIntersection
    simp only [if_pos hb, if_neg ha]

/-- C14: `linePlaneIntersection(d, l, l0, n, p0)` returns 1 exactly when
l.dot(n) != 0, returns 2 exactly when l.dot(n) = 0 and (p0-l0).dot(n) = 0, and
returns 0 exactly when l.dot(n) = 0 and (p0-l0).dot(n) != 0; the out-parameter d
keeps its content unless the result is 1, and then holds the quotient of the
two dot products. -/
theorem C14_linePlaneIntersection_result {N : ℕ} {T : Type} [CommRing T] [Div T]
    [DecidableEq T] (d : T) (l l0 n p0 : Vec N T) :
    ((linePlaneIntersection d l l0 n p0).1 = 1 ↔ Vec.dot l n ≠ 0) ∧
    ((linePlaneIntersection d l l0 n p0).1 = 2 ↔
      Vec.dot l n = 0 ∧ Vec.dot (Vec.sub p0 l0) n = 0) ∧
    ((linePlaneIntersection d l l0 n p0).1 = 0 ↔
      Vec.dot l n = 0 ∧ Vec.dot (Vec.sub p0 l0) n ≠ 0) ∧
    ((linePlaneIntersection d l l0 n p0).1 ≠ 1 → (linePlaneIntersection d l l0 n p0).2 = d) ∧
    ((linePlaneIntersection d l l0 n p0).1 = 1 →
      (linePlaneIntersection d l l0 n p0).2 = Vec.dot (Vec.sub p0 l0) n / Vec.dot l n) := by
  obtain ⟨c1, c2, c0⟩ := linePlaneIntersection_cases d l l0 n p0
  by_cases hb : Vec.dot l n = 0
  · by_cases ha : Vec.dot (Vec.sub p0 l0) n = 0
    · rw [c2 hb ha]
      simp [hb, ha]
    · rw [c0 hb ha]
      simp [hb, ha]
  · rw [c1 hb]
    simp [hb]

/-- The function `linePlaneIntersection` on samples: a line crossing the plane, a
line in the plane and a line parallel to it; `d` starts at 7. -/
theorem linePlaneIntersection_samples :
    linePlaneIntersection (7 : ℚ) (![0, 0, 1] : Vec 3 ℚ) ![0, 0, 5] ![0, 0, 1] ![0, 0, 0]
      = (1, -5) ∧
    linePlaneIntersection (7 : ℚ) (![1, 0, 0] : Vec 3 ℚ) ![0, 0, 0] ![0, 0, 1] ![2, 3, 0]
      = (2, 7) ∧
    linePlaneIntersection (7 : ℚ) (![1, 0, 0] : Vec 3 ℚ) ![0, 0, 5] ![0, 0, 1] ![0, 0, 0]
      = (0, 7) := by
  decide!

namespace Vec

/-- The dot product with `n` of the point `d*l + l0` taken relative to `p0`. -/
theorem dot_line_point {N : ℕ} {T : Type} [CommRing T] (x : T) (l l0 n p0 : Vec N T) :
    dot (sub (add (scale l x) l0) p0) n = x * dot l n - dot (sub p0 l0) n := by
  simp only [dot_eq_sum, sub, add, scale]
  rw [Finset.mul_sum, ← Finset.sum_sub_distrib]
  apply Finset.sum_congr rfl
  intro i _
  ring

end Vec

/-- C15: whenever `linePlaneIntersection(d, l, l0, n, p0)` returns 1 (components
in a field), the point d*l + l0, for the value written to d, lies on the plane
through p0 with normal n: ((d*l + l0) - p0).dot(n) = 0. -/
theorem C15_intersection_on_plane {N : ℕ} {T : Type} [Field T] [DecidableEq T]
    (d : T) (l l0 n p0 : Vec N T) (h : (linePlaneIntersection d l l0 n p0).1 = 1) :
    Vec.dot (Vec.sub (Vec.add (Vec.scale l (linePlaneIntersection d l l0 n p0).2) l0) p0) n
      = 0 := by
  obtain ⟨c1, c2, c0⟩ := linePlaneIntersection_cases d l l0 n p0
  by_cases hb : Vec.dot l n = 0
  · by_cases ha : Vec.dot (Vec.sub p0 l0) n = 0
    · rw [c2 hb ha] at h; simp at h
    · rw [c0 hb ha] at h; simp at h
  · rw [c1 hb, Vec.dot_line_point]
    simp only
    field_simp

/-- Witness of C15: the vertical line through (0, 0, 5) meets the horizontal
plane through the origin at d = -5. -/
theorem C15_intersection_on_plane_witness :
    (linePlaneIntersection (7 : ℚ) (![0, 0, 1] : Vec 3 ℚ) ![0, 0, 5] ![0, 0, 1] ![0, 0, 0])
      = (1, -5) ∧
    Vec.dot (Vec.sub (Vec.add (Vec.scale (![0, 0, 1] : Vec 3 ℚ)
      (linePlaneIntersection (7 : ℚ) (![0, 0, 1] : Vec 3 ℚ) ![0, 0, 5] ![0, 0, 1]
        ![0, 0, 0]).2) ![0, 0, 5]) ![0, 0, 0]) ![0, 0, 1] = 0 :=
  ⟨by decide!, C15_intersection_on_plane 7 ![0, 0, 1] ![0, 0, 5] ![0, 0, 1] ![0, 0, 0]
    (by decide!)⟩

/-- C16: for every vector and value v, `find(v)` returns -1 exactly when no
element equals v; otherwise it returns an index r in [0, N) with element r equal
to v and no element at an index below r equal to v. -/
theorem C16_find_first_occurrence {N : ℕ} {T : Type} [DecidableEq T] (a : Vec N T) (v : T) :
    (Vec.find a v = -1 ↔ ∀ i, a i ≠ v) ∧
    (Vec.find a v ≠ -1 →
      ∃ r : Fin N, Vec.find a v = (r.val : ℤ) ∧ a r = v ∧ ∀ j : Fin N, j < r → a j ≠ v) := by
  unfold Vec.find
  cases hf : (List.finRange N).find? (fun i => decide (a i = v)) with
  | none =>
    rw [List.find?_eq_none] at hf
    refine ⟨⟨fun _ i => ?_, fun _ => rfl⟩, fun h => absurd rfl h⟩
    simpa using hf i (List.mem_finRange i)
  | some r =>
    rw [List.find?_eq_some] at hf
    obtain ⟨hr, l1, l2, hsplit, hbefore⟩ := hf
    have hrv : a r = v := by simpa using hr
    have hne : ((r.val : ℤ)) ≠ -1 := by omega
    refine ⟨⟨fun h => absurd h hne, fun h => absurd hrv (h r)⟩, fun _ => ⟨r, rfl, hrv, ?_⟩⟩
    intro j hj
    have hpw := List.pairwise_lt_finRange N
    rw [hsplit, List.pairwise_append] at hpw
    have hmem : j ∈ l1 ++ r :: l2 := hsplit ▸ List.mem_finRange j
    rcases List.mem_append.mp hmem with h1 | h1
    · simpa using hbefore j h1
    · rcases List.mem_cons.mp h1 with h2 | h2
      · exact absurd hj (h2 ▸ lt_irrefl _)
      · have := (List.pairwise_cons.mp hpw.2.1).1 j h2
        exact absurd hj (not_lt.mpr this.le)

/-- The method `find` on samples. -/
theorem find_samples :
    Vec.find (![3, 1, 2, 1] : Vec 4 ℤ) 1 = 1 ∧ Vec.find (![3, 1, 2, 1] : Vec 4 ℤ) 7 = -1 ∧
    Vec.find (![] : Vec 0 ℤ) 0 = -1 := by
  decide

/-- Counterexample to C17 as stated: for the empty vector `Vec<0, T>` the loop of
`indexOfMin` does not run and the result is 0, which is not an index in [0, 0). -/
theorem C17_counterexample :
    Vec.indexOfMin (![] : Vec 0 ℤ) = 0 ∧ ¬ (Vec.indexOfMin (![] : Vec 0 ℤ) < 0) := by
  decide

/-- The loop of `indexOfMin` over the indices `1, ..., m`: its result is the
first index, among `0, ..., m`, of a least element. -/
theorem indexOfMin_loop {T : Type} [LinearOrder T] (a : ℕ → T) (m : ℕ) :
    (List.range' 1 m).foldl (fun j i => if a i < a j then i else j) 0 ≤ m ∧
    (∀ i, i ≤ m →
      a ((List.range' 1 m).foldl (fun j i => if a i < a j then i else j) 0) ≤ a i) ∧
    (∀ i, i < (List.range' 1 m).foldl (fun j i => if a i < a j then i else j) 0 →
      a ((List.range' 1 m).foldl (fun j i => if a i < a j then i else j) 0) < a i) := by
  induction m with
  | zero =>
    refine ⟨le_refl _, ?_, ?_⟩
    · intro i hi
      have : i = 0 := by omega
      subst this
      simp
    · intro i hi
      simp at hi
  | succ m ih =>
    rw [List.range'_concat, List.foldl_append, List.foldl_cons, List.foldl_nil]
    generalize (List.range' 1 m).foldl (fun j i => if a i < a j then i else j) 0 = j at ih
    obtain ⟨h1, h2, h3⟩ := ih
    have e : 1 + 1 * m = m + 1 := by omega
    rw [e]
    by_cases hlt : a (m + 1) < a j
    · rw [if_pos hlt]
      refine ⟨le_refl _, ?_, ?_⟩
      · intro i hi
        rcases Nat.lt_or_ge i (m + 1) with h | h
        · exact le_of_lt (lt_of_lt_of_le hlt (h2 i (by omega)))
        · have : i = m + 1 := by omega
          rw [this]
      · intro i hi
        exact lt_of_lt_of_le hlt (h2 i (by omega))
    · rw [if_neg hlt]
      refine ⟨by omega, ?_, h3⟩
      intro i hi
      rcases Nat.lt_or_ge i (m + 1) with h | h
      · exact h2 i (by omega)
      · have : i = m + 1 := by omega
        rw [this]
        exact not_lt.mp hlt

/-- C17 (amended): for every vector with at least one element over a totally
ordered element type, `indexOfMin()` returns an index j in [0, N) whose element
is less than or equal to every element of the vector, and j is the smallest
such index; `min()` returns that element. -/
theorem C17_indexOfMin_first_least {N : ℕ} {T : Type} [LinearOrder T] [Zero T]
    (a : Vec N T) (hN : 0 < N) :
    ∃ h : Vec.indexOfMin a < N,
      (∀ i, a ⟨Vec.indexOfMin a, h⟩ ≤ a i) ∧
      (∀ i : Fin N, (∀ k, a i ≤ a k) → Vec.indexOfMin a ≤ i.val) ∧
      Vec.min a = a ⟨Vec.indexOfMin a, h⟩ := by
  obtain ⟨h1, h2, h3⟩ := indexOfMin_loop (Vec.elem a) (N - 1)
  have hj : Vec.indexOfMin a < N := by
    unfold Vec.indexOfMin
    omega
  have hval : Vec.elem a (Vec.indexOfMin a) = a ⟨Vec.indexOfMin a, hj⟩ :=
    Vec.elem_coe a ⟨Vec.indexOfMin a, hj⟩
  refine ⟨hj, ?_, ?_, ?_⟩
  · intro i
    rw [← hval, ← Vec.elem_coe a i]
    exact h2 i.val (by omega)
  · intro i hi
    by_contra hcon
    push_neg at hcon
    have hlt := h3 i.val hcon
    have hle := hi ⟨Vec.indexOfMin a, hj⟩
    rw [Vec.elem_coe a i] at hlt
    change Vec.elem a (Vec.indexOfMin a) < a i at hlt
    rw [hval] at hlt
    exact absurd hle (not_le.mpr hlt)
  · unfold Vec.min
    exact hval

/-- Witness of C17 (amended): the least element 1 of (3, 1, 2, 1) is first met at index 1. -/
theorem C17_indexOfMin_first_least_witness :
    Vec.indexOfMin (![3, 1, 2, 1] : Vec 4 ℤ) = 1 ∧
    ∃ h : Vec.indexOfMin (![3, 1, 2, 1] : Vec 4 ℤ) < 4,
      (∀ i, (![3, 1, 2, 1] : Vec 4 ℤ) ⟨Vec.indexOfMin (![3, 1, 2, 1] : Vec 4 ℤ), h⟩
        ≤ (![3, 1, 2, 1] : Vec 4 ℤ) i) ∧
      (∀ i : Fin 4, (∀ k, (![3, 1, 2, 1] : Vec 4 ℤ) i ≤ (![3, 1, 2, 1] : Vec 4 ℤ) k) →
        Vec.indexOfMin (![3, 1, 2, 1] : Vec 4 ℤ) ≤ i.val) ∧
      Vec.min (![3, 1, 2, 1] : Vec 4 ℤ)
        = (![3, 1, 2, 1] : Vec 4 ℤ) ⟨Vec.indexOfMin (![3, 1, 2, 1] : Vec 4 ℤ), h⟩ :=
  ⟨by decide, C17_indexOfMin_first_least (![3, 1, 2, 1] : Vec 4 ℤ) (by decide)⟩

namespace Vec

/-- The operator `operator==(const T &v)` holds exactly when every element equals `v`. -/
theorem eqScalar_iff {N : ℕ} {T : Type} [DecidableEq T] (a : Vec N T) (v : T) :
    eqScalar a v = true ↔ ∀ i, a i = v := by
  unfold eqScalar
  rw [List.all_eq_true]
  constructor
  · intro h i
    simpa using h i (List.mem_finRange i)
  · intro h i _
    simpa using h i

/-- The operator `operator!=(const T &v)` holds exactly when some element differs from `v`. -/
theorem neScalar_iff {N : ℕ} {T : Type} [DecidableEq T] (a : Vec N T) (v : T) :
    neScalar a v = true ↔ ∃ i, a i ≠ v := by
  unfold neScalar
  rw [Bool.not_eq_true', ← Bool.not_eq_true, eqScalar_iff]
  push_neg
  rfl

end Vec

/-- C18 (the code at the failing input): for the vector (1, 2) and the scalar 1,
not all elements differ from the scalar, yet `operator!=(const T&)` returns
true, because it is the negation of `operator==(const T&)`. -/
theorem C18_ne_scalar_failing :
    Vec.neScalar (![1, 2] : Vec 2 ℤ) 1 = true ∧
    Vec.eqScalar (![1, 2] : Vec 2 ℤ) 1 = false ∧
    ¬ (∀ i, (![1, 2] : Vec 2 ℤ) i ≠ 1) := by
  decide

namespace Vec

/-- For a field of elements, with an exact conversion of the reciprocal, `mean`
is the sum of the elements divided by their number. -/
theorem mean_rat {N : ℕ} (a : Vec N ℚ) : mean id a = (∑ i : Fin N, a i) / (N : ℚ) := by
  unfold mean
  rw [sum_eq_sum]
  simp [div_eq_mul_inv]

/-- For `int` elements and at least two of them, the reciprocal of the size
converts to 0 and `mean` returns 0. -/
theorem mean_int {N : ℕ} (a : Vec N ℤ) (hN : 2 ≤ N) : mean intOfDouble a = 0 := by
  unfold mean
  have hpos : (0 : ℚ) ≤ 1 / (N : ℚ) := by positivity
  have hlt : (1 : ℚ) / (N : ℚ) < 1 := by
    rw [div_lt_one (by positivity)]
    exact_mod_cast hN
  have h0 : intOfDouble (1 / (N : ℚ)) = 0 := by
    unfold intOfDouble
    rw [if_pos hpos, Int.floor_eq_iff]
    constructor
    · simp only [Int.cast_zero]; exact hpos
    · simp only [Int.cast_zero, zero_add]; exact hlt
  rw [h0, mul_zero]

end Vec

/-- C19 (the code at the failing input): for the `int` vector (5, 5, 5) the sum
is 15, the reciprocal of the size converts to the `int` 0, and `mean()` returns
0, not 5. -/
theorem C19_mean_int_failing :
    Vec.sum (![5, 5, 5] : Vec 3 ℤ) = 15 ∧ intOfDouble (1 / 3) = 0 ∧
    Vec.mean intOfDouble (![5, 5, 5] : Vec 3 ℤ) = 0 := by
  decide!

/-- The conversion to `int` of `x + 1/2` for `x > 0`, of `x - 1/2` for `x < 0`
and of 0 is within 1/2 of `x`. -/
theorem intOfDouble_round (x : ℚ) :
    |((intOfDouble (x + if x < 0 then -(1 / 2) else if 0 < x then 1 / 2 else 0) : ℤ) : ℚ) - x|
      ≤ 1 / 2 := by
  rw [abs_le]
  by_cases hneg : x < 0
  · rw [if_pos hneg]
    have hy : ¬ (0 : ℚ) ≤ x + -(1 / 2) := by linarith
    unfold intOfDouble
    rw [if_neg hy]
    have h1 := Int.le_ceil (x + -(1 / 2))
    have h2 := Int.ceil_lt_add_one (x + -(1 / 2))
    constructor <;> linarith
  · rw [if_neg hneg]
    by_cases hpos : 0 < x
    · rw [if_pos hpos]
      have hy : (0 : ℚ) ≤ x + 1 / 2 := by linarith
      unfold intOfDouble
      rw [if_pos hy]
      have h1 := Int.floor_le (x + 1 / 2)
      have h2 := Int.lt_floor_add_one (x + 1 / 2)
      constructor <;> linarith
    · rw [if_neg hpos]
      have hx : x = 0 := le_antisymm (not_lt.mp hpos) (not_lt.mp hneg)
      subst hx
      norm_num [intOfDouble]

/-- C20: for every real-valued vector v (components exact rationals, conversion
to int truncating toward zero), each component of `roundi(v)` is an integer
nearest to the corresponding component of v: |roundi(v)[i] - v[i]| <= 1/2, and
no integer is nearer. -/
theorem C20_roundi_nearest {N : ℕ} (v : Vec N ℚ) (i : Fin N) :
    |((roundi v i : ℤ) : ℚ) - v i| ≤ 1 / 2 ∧
    ∀ k : ℤ, |((roundi v i : ℤ) : ℚ) - v i| ≤ |(k : ℚ) - v i| := by
  have hr : |((roundi v i : ℤ) : ℚ) - v i| ≤ 1 / 2 := by
    have h := intOfDouble_round (v i)
    unfold roundi Vec.add Vec.sgn
    exact h
  refine ⟨hr, ?_⟩
  intro k
  by_contra hcon
  push_neg at hcon
  have hlt : |((k - roundi v i : ℤ) : ℚ)| < 1 := by
    have e : ((k - roundi v i : ℤ) : ℚ) = ((k : ℚ) - v i) - (((roundi v i : ℤ) : ℚ) - v i) := by
      push_cast; ring
    rw [e]
    calc |((k : ℚ) - v i) - (((roundi v i : ℤ) : ℚ) - v i)|
        ≤ |(k : ℚ) - v i| + |((roundi v i : ℤ) : ℚ) - v i| := abs_sub _ _
      _ < 1 / 2 + 1 / 2 := by linarith
      _ = 1 := by norm_num
  have hk : k - roundi v i = 0 := by
    have : |k - roundi v i| < 1 := by exact_mod_cast hlt
    exact Int.abs_lt_one_iff.mp this
  have hk2 : k = roundi v i := by omega
  rw [hk2] at hcon
  exact lt_irrefl _ hcon

/-- The function `roundi` on samples: halves are rounded away from zero. -/
theorem roundi_samples :
    roundi (![5 / 2, -5 / 2, 1 / 3, -7 / 4, 0] : Vec 5 ℚ) = ![3, -3, 0, -2, 0] := by
  decide!

namespace Vec

/-- The elements of a vector after `rotate90(dim1, dim2)`, for distinct dimensions. -/
theorem rotate90_apply {N : ℕ} {T : Type} [Neg T] (a : Vec N T) (dim1 dim2 : Fin N)
    (h : dim1 ≠ dim2) :
    rotate90 a dim1 dim2 dim1 = -(a dim2) ∧
    rotate90 a dim1 dim2 dim2 = a dim1 ∧
    (∀ k, k ≠ dim1 → k ≠ dim2 → rotate90 a dim1 dim2 k = a k) := by
  unfold rotate90 swap
  refine ⟨?_, ?_, ?_⟩
  · rw [Function.update_noteq h, Function.update_same, Function.update_same]
  · rw [Function.update_same, Function.update_noteq h]
  · intro k h1 h2
    rw [Function.update_noteq h2, Function.update_noteq h1, Function.update_noteq h2]

end Vec

/-- C21: for every vector and every two distinct in-range dimensions dim1, dim2,
`rotate90(dim1, dim2)` sets the new dim1 component to minus the old dim2
component and the new dim2 component to the old dim1 component, leaves all
other components unchanged, and a following `rotate90(dim2, dim1)` restores the
original vector. -/
theorem C21_rotate90_quarter_turn {N : ℕ} {T : Type} [InvolutiveNeg T] (a : Vec N T)
    (dim1 dim2 : Fin N) (h : dim1 ≠ dim2) :
    Vec.rotate90 a dim1 dim2 dim1 = -(a dim2) ∧
    Vec.rotate90 a dim1 dim2 dim2 = a dim1 ∧
    (∀ k, k ≠ dim1 → k ≠ dim2 → Vec.rotate90 a dim1 dim2 k = a k) ∧
    Vec.rotate90 (Vec.rotate90 a dim1 dim2) dim2 dim1 = a := by
  have h' : dim2 ≠ dim1 := fun e => h e.symm
  obtain ⟨f1, f2, f3⟩ := Vec.rotate90_apply a dim1 dim2 h
  obtain ⟨g1, g2, g3⟩ := Vec.rotate90_apply (Vec.rotate90 a dim1 dim2) dim2 dim1 h'
  refine ⟨f1, f2, f3, ?_⟩
  funext k
  by_cases h1 : k = dim1
  · rw [h1, g2, f2]
  · by_cases h2 : k = dim2
    · rw [h2, g1, f1, neg_neg]
    · rw [g3 k h2 h1, f3 k h1 h2]

/-- Witness of C21: (1, 2, 3) rotated from dimension 0 towards dimension 1 is
(-2, 1, 3), and rotating back restores (1, 2, 3). -/
theorem C21_rotate90_quarter_turn_witness :
    Vec.rotate90 (![1, 2, 3] : Vec 3 ℤ) 0 1 = ![-2, 1, 3] ∧
    Vec.rotate90 (Vec.rotate90 (![1, 2, 3] : Vec 3 ℤ) 0 1) 1 0 = ![1, 2, 3] :=
  ⟨by decide, (C21_rotate90_quarter_turn (![1, 2, 3] : Vec 3 ℤ) 0 1 (by decide)).2.2.2⟩

namespace Vec

/-- The dot product with `u` of `v` less a multiple of `u`. -/
theorem dot_sub_scale {N : ℕ} {T : Type} [CommRing T] (v u : Vec N T) (c : T) :
    dot (sub v (scale u c)) u = dot v u - c * dot u u := by
  simp only [dot_eq_sum, sub, scale]
  rw [Finset.mul_sum, ← Finset.sum_sub_distrib]
  apply Finset.sum_congr rfl
  intro i _
  ring

end Vec

/-- C22: for every vector v and every unit vector u (u.magSqr() = 1),
`v.rejection(u)` is orthogonal to u, `v.projection(u) + v.rejection(u) = v`, and
the projection is the multiple of u by `v.dot(u)`: the rejection is the
projection of v onto the plane with normal u. -/
theorem C22_rejection_orthogonal {N : ℕ} {T : Type} [CommRing T] (v u : Vec N T)
    (hu : Vec.magSqr u = 1) :
    Vec.dot (Vec.rejection v u) u = 0 ∧
    Vec.add (Vec.projection v u) (Vec.rejection v u) = v ∧
    Vec.projection v u = Vec.scale u (Vec.dot v u) := by
  refine ⟨?_, ?_, rfl⟩
  · unfold Vec.rejection Vec.projection
    unfold Vec.magSqr at hu
    rw [Vec.dot_sub_scale, hu, mul_one, sub_self]
  · funext i
    simp [Vec.add, Vec.rejection, Vec.projection, Vec.sub]

/-- Witness of C22: v = (1, 2) and the unit vector u = (3/5, 4/5). -/
theorem C22_rejection_orthogonal_witness :
    Vec.magSqr (![3 / 5, 4 / 5] : Vec 2 ℚ) = 1 ∧
    Vec.rejection (![1, 2] : Vec 2 ℚ) ![3 / 5, 4 / 5] = ![-8 / 25, 6 / 25] ∧
    Vec.dot (Vec.rejection (![1, 2] : Vec 2 ℚ) ![3 / 5, 4 / 5]) ![3 / 5, 4 / 5] = 0 :=
  ⟨by decide!, by decide!,
   (C22_rejection_orthogonal (![1, 2] : Vec 2 ℚ) ![3 / 5, 4 / 5] (by decide!)).1⟩

namespace Vec

theorem setElem_apply {N : ℕ} {T : Type} (r : Vec N T) (i : ℕ) (x : T) (k : Fin N) :
    setElem r i x k = if k.val = i then x else r k := rfl

/-- A loop of writes `(*this)[i] = f i` for `i = s, ..., s + m - 1`. -/
theorem foldl_setElem {N : ℕ} {T : Type} (f : ℕ → T) (s : ℕ) (a : Vec N T) (k : Fin N) :
    ∀ m : ℕ, ((List.range' s m).foldl (fun r i => setElem r i (f i)) a) k =
      if s ≤ k.val ∧ k.val < s + m then f k.val else a k := by
  intro m
  induction m with
  | zero =>
    have h0 : ¬ (s ≤ k.val ∧ k.val < s + 0) := by omega
    rw [if_neg h0]
    rfl
  | succ m ih =>
    rw [List.range'_concat, List.foldl_append, List.foldl_cons, List.foldl_nil, setElem_apply]
    simp only [mul_one, one_mul]
    by_cases hk : k.val = s + m
    · rw [if_pos hk, if_pos (by omega), hk]
    · rw [if_neg hk, ih]
      by_cases hr : s ≤ k.val ∧ k.val < s + m
      · rw [if_pos hr, if_pos (by omega)]
      · rw [if_neg hr, if_neg (by omega)]

/-- The operator `operator=(const T &v)` sets every element to `v`. -/
theorem assignAll_apply {N : ℕ} {T : Type} (a : Vec N T) (v : T) (k : Fin N) :
    assignAll a v k = v := by
  unfold assignAll
  rw [foldl_setElem (fun _ => v) 0 a k N, if_pos ⟨Nat.zero_le _, by have := k.2; omega⟩]

end Vec

/-- C23: `set(std::initializer_list)` and the initializer-list constructor: for a
list with exactly one element e every component of the vector becomes e; for a
list of any other length k, component i becomes the i-th list element for
i < min(k, N) and `T()` (zero) for min(k, N) <= i < N. -/
theorem C23_set_initializer_list {N : ℕ} {T : Type} [Zero T] (a : Vec N T) (v : List T) :
    (∀ e, v = [e] → ∀ i, Vec.setList a v i = e) ∧
    (v.length ≠ 1 → ∀ i : Fin N,
      (i.val < min v.length N → v[i.val]? = some (Vec.setList a v i)) ∧
      (min v.length N ≤ i.val → Vec.setList a v i = 0)) ∧
    Vec.ofInitializerList a v = Vec.setList a v := by
  refine ⟨?_, ?_, rfl⟩
  · intro e he i
    subst he
    have h1 : [e].length = 1 := rfl
    unfold Vec.setList
    rw [if_pos h1, Vec.assignAll_apply]
    rfl
  · intro hlen i
    have hi := i.2
    unfold Vec.setList
    rw [if_neg hlen]
    generalize hM : (if N < v.length then N else v.length) = M
    have hMmin : M = min v.length N := by
      rw [← hM]
      split_ifs with hlt
      · exact (min_eq_right hlt.le).symm
      · exact (min_eq_left (not_lt.mp hlt)).symm
    have hMN : M ≤ N := by rw [hMmin]; exact min_le_right _ _
    have hMk : M ≤ v.length := by rw [hMmin]; exact min_le_left _ _
    rw [Vec.foldl_setElem (fun _ => (0 : T)) M _ i (N - M)]
    rw [← hMmin]
    constructor
    · intro hlt
      rw [if_neg (by omega), Vec.foldl_setElem (fun j => v.getD j 0) 0 a i M,
        if_pos ⟨Nat.zero_le _, by omega⟩]
      have hiv : i.val < v.length := by omega
      rw [List.getD_eq_getElem?_getD, List.getElem?_eq_getElem hiv]
      rfl
    · intro hge
      rw [if_pos ⟨hge, by omega⟩]

/-- The method `set(std::initializer_list)` on samples: a single element, a short
list, a long list, the empty list. -/
theorem setList_samples :
    Vec.setList (![7, 7, 7] : Vec 3 ℤ) [5] = ![5, 5, 5] ∧
    Vec.setList (![7, 7, 7] : Vec 3 ℤ) [1, 2] = ![1, 2, 0] ∧
    Vec.setList (![7, 7, 7] : Vec 3 ℤ) [1, 2, 3, 4] = ![1, 2, 3] ∧
    Vec.setList (![7, 7, 7] : Vec 3 ℤ) [] = ![0, 0, 0] := by
  decide

end al
